import Mathlib

/-!
Verification of the SDMX key codec and fuzzy indicator-resolution subsystem
of the `data-tools` repository (files `sdmx_api.py`, `uis.py`,
`make_uis_indicator_dict.py`), as a shallow embedding in Lean 4.

Python strings are modelled as `List Char` (named `Str`); Python lists as
`List`; Python dicts as association lists `List (k × v)` looked up by first
occurrence (keys are distinct everywhere we reason about them); fallible
code returns `Option`.
-/

universe u

/-- Python strings, modelled as lists of characters. -/
abbrev Str := List Char

/-- Python `s.split(sep)` for a single-character separator: splits at every
occurrence of `sep`; the result is always non-empty and may contain empty
parts (`"".split el(".") == [""]`, `"a..b".split(".") == ["a","","b"]`). -/
def pySplit (sep : Char) : Str → List Str
  | [] => [[]]
  | c :: rest =>
    if c = sep then [] :: pySplit sep rest
    else
      match pySplit sep rest with
      | [] => [[c]]
      | w :: ws => (c :: w) :: ws

/-- Python `sep.join(parts)` for a single-character separator. -/
def pyJoin (sep : Char) : List Str → Str
  | [] => []
  | [w] => w
  | w :: ws => w ++ sep :: pyJoin sep ws

/-- Python `s.upper()` (ASCII; all strings in this development are ASCII). -/
def pyUpper (s : Str) : Str := s.map Char.toUpper

/-- Python `s.lower()` (ASCII). -/
def pyLower (s : Str) : Str := s.map Char.toLower

/-- First-occurrence lookup in an association list (Python `d.get(k)`). -/
def pyGet (d : List (Str × α)) (k : Str) : Option α :=
  (d.find? (fun kv => kv.1 = k)).map (·.2)

namespace SdmxApi

/-- A Python value that can appear in a dimension dictionary passed to
`Filter.dict_to_key`: a scalar string or a list of strings (`None` is
modelled by absence, i.e. `Option` at the lookup). -/
inductive PyVal where
  | str : Str → PyVal
  | strs : List Str → PyVal
deriving DecidableEq

/-- `sdmx_api.value_to_filter_string`: `None → ""`, a list joins with `+`,
a scalar string is returned as is. -/
def value_to_filter_string : Option PyVal → Str
  | none => []
  | some (.strs l) => pyJoin '+' l
  | some (.str s) => s

/-- `sdmx_api.Filter.non_ind`: the coordinate dimensions. -/
def nonInd : List Str := ["REF_AREA".data, "TIME_PERIOD".data]

/-- `sdmx_api.Filter`: holds the ordered dimension list. -/
structure Filter where
  all_dims : List Str

/-- `Filter.ind_dims` as computed in `Filter.__init__`. -/
def Filter.ind_dims (f : Filter) : List Str :=
  f.all_dims.filter (fun d => !nonInd.contains d)

/-- `Filter.dims`. -/
def Filter.dims (f : Filter) (ind : Bool) : List Str :=
  if ind then f.ind_dims else f.all_dims

/-- `Filter.is_dim`. -/
def Filter.is_dim (f : Filter) (dim : Str) (ind : Bool := true) : Bool :=
  (f.dims ind).contains (pyUpper dim)

/-- `Filter.extract_dims`: keep the valid dimensions of a dictionary,
upper-casing their names (generic in the value type, as the Python code is
used with both string and `PyVal` dictionaries). -/
def Filter.extract_dims (f : Filter) (d : List (Str × α)) (ind : Bool := true) :
    List (Str × α) :=
  (d.filter (fun kv => f.is_dim kv.1 ind)).map (fun kv => (pyUpper kv.1, kv.2))

/-- `Filter.dict_to_key`: join the formatted value of each dimension with
`.`; an empty/absent dict gives a key of `len(dims)-1` dots. -/
def Filter.dict_to_key (f : Filter) (d : List (Str × PyVal)) (ind : Bool := true) :
    Str :=
  if d ≠ [] then
    pyJoin '.' ((f.dims ind).map (fun k => value_to_filter_string (pyGet d k)))
  else
    List.replicate ((f.dims ind).length - 1) '.'

/-- `Filter.key_to_dict`: zip the dimension list positionally against the
`.`-split key, then `extract_dims`.  Note the source ignores its `ind`
argument (it calls `extract_dims` with the default `ind=True`). -/
def Filter.key_to_dict (f : Filter) (key : Str) (ind : Bool := true) :
    List (Str × Str) :=
  f.extract_dims (f.all_dims.zip (pySplit '.' key))

/-- `uis.UIS_DIMENSIONS` (from `uis.py`). -/
def uisDimensions : List Str :=
  ["STAT_UNIT".data, "UNIT_MEASURE".data, "EDU_LEVEL".data, "EDU_CAT".data,
   "SEX".data, "AGE".data, "GRADE".data, "SECTOR_EDU".data, "EDU_ATTAIN".data,
   "WEALTH_QUINTILE".data, "LOCATION".data, "EDU_TYPE".data, "EDU_FIELD".data,
   "SUBJECT".data, "INFRASTR".data, "SE_BKGRD".data, "TEACH_EXPERIENCE".data,
   "CONTRACT_TYPE".data, "COUNTRY_ORIGIN".data, "REGION_DEST".data,
   "IMM_STATUS".data, "REF_AREA".data]

/-- `uis.uis_filter = sdmx_api.Filter(UIS_DIMENSIONS)`. -/
def uisFilter : Filter := ⟨uisDimensions⟩

end SdmxApi

namespace Uis

/-- Python `set(a) <= set(b)` on lists of strings. -/
def pyIsSubsetB (a b : List Str) : Bool :=
  a.all (fun p => decide (p ∈ b))

/-- `uis.is_ancestor`: `a[0] == b[0] and set(b) > set(a)`.
Python raises `IndexError` on an empty list, modelled by `none`
(in `a[0] == b[0]` both indexings are evaluated, so either side empty
raises).  `set(b) > set(a)` is the proper-superset test. -/
def is_ancestor (a b : List Str) : Option Bool :=
  match a.head?, b.head? with
  | some x, some y => some ((x == y) && (pyIsSubsetB a b && !pyIsSubsetB b a))
  | _, _ => none

/-- `uis.is_parent`: ancestor with exactly one extra part
(`len(set(b) - set(a)) == 1`). -/
def is_parent (a b : List Str) : Option Bool :=
  match is_ancestor a b with
  | none => none
  | some anc =>
    some (anc && ((b.dedup.filter (fun p => !decide (p ∈ a))).length == 1))

/-- `uis.get_relations`: all short keys in `all_short_keys` for which the
relation holds against `short_key` (the generator is modelled as the list
it yields; the relation never raises here because `pySplit` output is
non-empty). -/
def get_relations (short_key : Str) (all_short_keys : List Str)
    (relation : List Str → List Str → Option Bool) (reverse : Bool := false) :
    List Str :=
  let me := pySplit '-' short_key
  let predicate : List Str → List Str → Option Bool :=
    if reverse then (fun a b => relation b a) else relation
  all_short_keys.filter (fun other => predicate (pySplit '-' other) me == some true)

/-- `uis.has_ancestor`. -/
def has_ancestor (short_key : Str) (all_short_keys : List Str) : Bool :=
  !(get_relations short_key all_short_keys is_ancestor).isEmpty

/-- `uis.get_root`: first ancestor of `short_key` that itself has no
ancestor; `None` (here `none`) when the loop finds nothing. -/
def get_root (short_key : Str) (all_short_keys : List Str) : Option Str :=
  (get_relations short_key all_short_keys is_ancestor).find?
    (fun ancestor => !has_ancestor ancestor all_short_keys)

/-- All ways of removing one element from a list: each element paired with
the list minus that occurrence (helper for `itertools.permutations`). -/
def removals : List α → List (α × List α)
  | [] => []
  | x :: xs => (x, xs) :: (removals xs).map (fun p => (p.1, x :: p.2))

/-- `itertools.permutations(l, r)`: all `r`-length selections of distinct
positions of `l`, in every order.  (itertools enumerates them in a specific
order; only membership in the result is ever used by the source, so the
enumeration order of this model is irrelevant.) -/
def pyPermutations : List α → Nat → List (List α)
  | _, 0 => [[]]
  | l, r + 1 =>
    (removals l).flatMap (fun p => (pyPermutations p.2 r).map (p.1 :: ·))

/-- `uis.strict_key_match`: every search part must be present verbatim, and
the search-part tuple must be one of the `len(search_parts)`-permutations
of the key parts. -/
def strict_key_match (search_parts key_parts : List Str) : Bool :=
  if search_parts.any (fun s => !decide (s ∈ key_parts)) then false
  else decide (search_parts ∈ pyPermutations key_parts search_parts.length)

/-- Python `a in b` for strings: contiguous-substring test. -/
def pyInfix (a b : Str) : Bool := decide (a <:+: b)

/-- `uis.loose_key_match`: like `strict_key_match` but each search part
only needs to be a substring of its assigned key part. -/
def loose_key_match (search_parts key_parts : List Str) : Bool :=
  if search_parts.any (fun s => !key_parts.any (fun k => pyInfix s k)) then
    false
  else
    (pyPermutations key_parts search_parts.length).any
      (fun permutation =>
        (search_parts.zip permutation).all (fun sk => pyInfix sk.1 sk.2))

/-- `uis.count_matching_words`: `sum((word in b) for word in a)`. -/
def count_matching_words (a b : List Str) : Nat :=
  (a.filter (fun word => decide (word ∈ b))).length

/-- `uis.longest_matched_sequence`: scan lengths from `len(a)` down to 1 and
all start positions; first contiguous slice of `a` found contiguously in
`b` wins. -/
def longest_matched_sequence (a b : List Str) :
    Option (Nat × Nat × Nat) :=
  ((List.range a.length).map (fun i => a.length - i)).findSome? (fun len =>
    (List.range (a.length - len + 1)).findSome? (fun start_a =>
      (List.range (b.length - len + 1)).findSome? (fun start_b =>
        if (a.drop start_a).take len = (b.drop start_b).take len then
          some (start_a, start_b, len)
        else none)))

/-- The `while` loop of `uis.matchingness`, with the fixed initial query
length `n` as the fraction denominator. -/
def matchingness_go (n : Nat) (a b : List Str) : List ℚ :=
  if a = [] ∨ b = [] then []
  else
    match hm : longest_matched_sequence a b with
    | none => []
    | some (sa, _sb, len) =>
      ((len : ℚ) / (n : ℚ)) ::
        matchingness_go n (a.take sa ++ a.drop (sa + len))
          (b.take _sb ++ b.drop (_sb + len))
termination_by a.length
decreasing_by
  unfold longest_matched_sequence at hm
  obtain ⟨len0, hlen0, h2⟩ := List.exists_of_findSome?_eq_some hm
  obtain ⟨sa0, hsa0, h3⟩ := List.exists_of_findSome?_eq_some h2
  obtain ⟨sb0, hsb0, h4⟩ := List.exists_of_findSome?_eq_some h3
  have h5 : sa0 = sa ∧ sb0 = _sb ∧ len0 = len := by
    split at h4
    · have h6 := Option.some.inj h4
      exact ⟨congrArg (fun p => p.1) h6, congrArg (fun p => p.2.1) h6,
        congrArg (fun p => p.2.2) h6⟩
    · simp at h4
  obtain ⟨rfl, rfl, rfl⟩ := h5
  obtain ⟨i, hi, hieq⟩ := List.mem_map.1 hlen0
  rw [List.mem_range] at hi
  rw [List.mem_range] at hsa0
  simp only [List.length_append, List.length_take, List.length_drop]
  have hsa1 : sa0 ≤ a.length := by omega
  rw [min_eq_left hsa1]
  omega

/-- `uis.matchingness`: fractions of the query consumed by successive
longest matched sequences. -/
def matchingness (a b : List Str) : List ℚ :=
  matchingness_go a.length a b

/-- Numerator-level twin of `matchingness_go` (proof/computation helper):
the matched lengths without the division, driven by explicit fuel so that
it is structurally recursive and kernel-evaluable.  `matchingness_num`
below supplies enough fuel, and `matchingness_go_eq_num` proves it equal
to the faithful recursion. -/
def matchingness_num_go : Nat → List Str → List Str → List Nat
  | 0, _, _ => []
  | fuel + 1, a, b =>
    if a = [] ∨ b = [] then []
    else
      match longest_matched_sequence a b with
      | none => []
      | some (sa, sb, len) =>
        len :: matchingness_num_go fuel (a.take sa ++ a.drop (sa + len))
            (b.take sb ++ b.drop (sb + len))

/-- The matched lengths of `matchingness`, with sufficient fuel. -/
def matchingness_num (a b : List Str) : List Nat :=
  matchingness_num_go (a.length + 1) a b

/-- The loop of `uis.max_indices`: track the current maximum and the
indices where it occurs (`i == 0 or n > highest` resets, `n == highest`
appends). -/
def max_indices_go (gt eq : α → α → Bool) :
    List α → Nat → α → List Nat → α × List Nat
  | [], _, highest, indices => (highest, indices)
  | n :: rest, i, highest, indices =>
    if gt n highest then max_indices_go gt eq rest (i + 1) n [i]
    else if eq n highest then
      max_indices_go gt eq rest (i + 1) highest (indices ++ [i])
    else max_indices_go gt eq rest (i + 1) highest indices

/-- `uis.max_indices`: the maximum of an iterable and the indices of its
occurrences; `(None, None)` on an empty iterable. -/
def max_indices (gt eq : α → α → Bool) (l : List α) :
    Option α × Option (List Nat) :=
  match l with
  | [] => (none, none)
  | n :: rest =>
    let r := max_indices_go gt eq rest 1 n [0]
    (some r.1, some r.2)

/-- Python `>` on tuples of rationals: lexicographic, a proper prefix is
smaller. -/
def pyLexGtQ : List ℚ → List ℚ → Bool
  | [], _ => false
  | _ :: _, [] => true
  | x :: xs, y :: ys =>
    if x > y then true else if y > x then false else pyLexGtQ xs ys

/-- Nat-level twin of `pyLexGtQ` (computation helper). -/
def pyLexGtNat : List Nat → List Nat → Bool
  | [], _ => false
  | _ :: _, [] => true
  | x :: xs, y :: ys =>
    if x > y then true else if y > x then false else pyLexGtNat xs ys

/-- `uis.best_matches`: three tiers — full substring containment, maximal
count of matching words, then lexicographically maximal matchingness.
`none` models the `TypeError` Python raises when the candidate list is
empty (`len(None)`). -/
def best_matches (a : Str) (L : List Str) : Option (List Nat) :=
  let matches1 := (List.range L.length).filter
    (fun i => pyInfix a (L.getD i []))
  if !matches1.isEmpty then some matches1
  else
    let aw := pySplit ' ' a
    let LW := L.map (pySplit ' ')
    match max_indices (fun x y => decide (x > y)) (fun x y => decide (x = y))
        (LW.map (fun b => count_matching_words aw b)) with
    | (some highest, some found) =>
      if highest = 0 then some []
      else if found.length = 1 then some found
      else
        match max_indices pyLexGtQ (fun x y => decide (x = y))
            (found.map (fun i => matchingness aw (LW.getD i []))) with
        | (some _, some doubly_matched) =>
          some (doubly_matched.map (fun i => found.getD i 0))
        | _ => none
    | _ => none

/-- Computation twin of `best_matches` working on matched lengths instead
of fractions (kernel-evaluable; proven equal to `best_matches`). -/
def best_matches_num (a : Str) (L : List Str) : Option (List Nat) :=
  let matches1 := (List.range L.length).filter
    (fun i => pyInfix a (L.getD i []))
  if !matches1.isEmpty then some matches1
  else
    let aw := pySplit ' ' a
    let LW := L.map (pySplit ' ')
    match max_indices (fun x y => decide (x > y)) (fun x y => decide (x = y))
        (LW.map (fun b => count_matching_words aw b)) with
    | (some highest, some found) =>
      if highest = 0 then some []
      else if found.length = 1 then some found
      else
        match max_indices pyLexGtNat (fun x y => decide (x = y))
            (found.map (fun i => matchingness_num aw (LW.getD i []))) with
        | (some _, some doubly_matched) =>
          some (doubly_matched.map (fun i => found.getD i 0))
        | _ => none
    | _ => none

/-- The ranking of match-fraction tuples asserted by the claim (following
the spec's words, for comparison with the code): compare first by the count
of nonzero matches (fewer, larger matched spans preferred), then by the
sum. -/
def specFractionsGt (xs ys : List ℚ) : Bool :=
  let nx := (xs.filter (fun q => decide (q ≠ 0))).length
  let ny := (ys.filter (fun q => decide (q ≠ 0))).length
  if nx ≠ ny then decide (nx < ny) else decide (xs.sum > ys.sum)

/-- The candidate set designated by the amended claim: indices maximal
under "more matching words first, then lexicographically greater
matchingness tuple". -/
def label_tier_best (a : Str) (L : List Str) : List Nat :=
  (List.range L.length).filter (fun i =>
    (List.range L.length).all (fun j =>
      !(decide (count_matching_words (pySplit ' ' a)
            (pySplit ' ' (L.getD j [])) >
          count_matching_words (pySplit ' ' a) (pySplit ' ' (L.getD i [])))
        || (decide (count_matching_words (pySplit ' ' a)
              (pySplit ' ' (L.getD j [])) =
            count_matching_words (pySplit ' ' a) (pySplit ' ' (L.getD i [])))
          && pyLexGtQ (matchingness (pySplit ' ' a) (pySplit ' ' (L.getD j [])))
              (matchingness (pySplit ' ' a) (pySplit ' ' (L.getD i [])))))))

/-- One record of the indicator catalog (`Indicator.keys` columns `key`,
`short_key`, `id` and `label`; the lowered columns are recomputed from
`key` and `id` where the source uses them). -/
structure IndicatorRec where
  key : Str
  short_key : Str
  id : Str
  label : Str
deriving DecidableEq

/-- `Indicator.lookup` over an explicit catalog: exact match by lowered
key, then lowered id, then short key, returning the first matching record;
`none` models the `KeyError`. -/
def lookup (cat : List IndicatorRec) (s : Str) : Option IndicatorRec :=
  match cat.find? (fun r => decide (pyLower r.key = pyLower s)) with
  | some r => some r
  | none =>
    match cat.find? (fun r => decide (pyLower r.id = pyLower s)) with
    | some r => some r
    | none => cat.find? (fun r => decide (r.short_key = pyLower s))

/-- Python `<` on strings: lexicographic comparison of code points. -/
def pyStrLt : Str → Str → Bool
  | [], [] => false
  | [], _ :: _ => true
  | _ :: _, [] => false
  | c :: cs, d :: ds =>
    if c.val < d.val then true
    else if d.val < c.val then false
    else pyStrLt cs ds

/-- Python `<` on lists of strings: lexicographic, a proper prefix is
smaller. -/
def pyListStrLt : List Str → List Str → Bool
  | [], [] => false
  | [], _ :: _ => true
  | _ :: _, [] => false
  | x :: xs, y :: ys =>
    if pyStrLt x y then true
    else if pyStrLt y x then false
    else pyListStrLt xs ys

/-- `Indicator.__lt__` via `comparison_key`: compare the hyphen-split
short keys. -/
def indLt (a b : IndicatorRec) : Bool :=
  pyListStrLt (pySplit '-' a.short_key) (pySplit '-' b.short_key)

/-- Insertion step of a stable sort by `indLt` (Python `sorted` keeps the
original order of ties, so an element passes over strictly smaller heads
only). -/
def insertSorted (x : IndicatorRec) : List IndicatorRec → List IndicatorRec
  | [] => [x]
  | y :: ys => if indLt y x then y :: insertSorted x ys else x :: y :: ys

/-- Python `sorted` on indicators: stable sort by `indLt`. -/
def pySortInds (l : List IndicatorRec) : List IndicatorRec :=
  l.foldr insertSorted []

/-- `fuzzy_lookup.interpret_indices` specialised to `by=None` (the
`match_similar` narrowing is skipped): build the matched records, keep the
ones whose short key has the fewest hyphen-separated parts when
`shortest`, and require a unique match unless `allow_multiple`.  The
source iterates a Python set of indices in unspecified order; it is
represented here as an ascending index list. -/
def interpret_indices (cat : List IndicatorRec)
    (shortest allow_multiple : Bool) (indices : List Nat) :
    Option (List IndicatorRec) :=
  if indices = [] then none
  else
    let found := indices.map (fun i => cat.getD i ⟨[], [], [], []⟩)
    let found2 :=
      if shortest then
        match (found.map (fun m => (pySplit '-' m.short_key).length)).min? with
        | some min_length => found.filter
            (fun m => decide ((pySplit '-' m.short_key).length = min_length))
        | none => found
      else found
    if found2.length = 1 ∨ allow_multiple = true then some found2 else none

/-- The index set collected by one substring tier of `fuzzy_lookup`: the
catalog positions whose hyphen-split short key, dot-split lowered key or
dot-split lowered id matches the query parts (the union of the three
lookup loops, as an ascending index list). -/
def tier_indices (cat : List IndicatorRec)
    (keyMatch : List Str → List Str → Bool) (substrings : List Str) :
    List Nat :=
  (List.range cat.length).filter (fun i =>
    keyMatch substrings (pySplit '-' (cat.getD i ⟨[], [], [], []⟩).short_key)
      || keyMatch substrings
          (pySplit '.' (pyLower (cat.getD i ⟨[], [], [], []⟩).key))
      || keyMatch substrings
          (pySplit '.' (pyLower (cat.getD i ⟨[], [], [], []⟩).id)))

/-- `string.punctuation`. -/
def pyPunctuation : Str :=
  "!\x22#$%&\x27()*+,-./:;<=>?@[\x5c]^_\x60\x7b|\x7d~".data

/-- Python whitespace, as stripped by `str.strip()`. -/
def pyWhitespace : Str := " \t\n\r\x0b\x0c".data

/-- `re.sub(' +', ' ', s)`: collapse each run of spaces to a single
space. -/
def collapseSpaces : Str → Str
  | [] => []
  | c :: cs =>
    if c = ' ' then ' ' :: collapseSpaces (cs.dropWhile (fun d => d = ' '))
    else c :: collapseSpaces cs
termination_by s => s.length
decreasing_by
  · simp only [List.length_cons]
    exact Nat.lt_succ_of_le (List.dropWhile_sublist _).length_le
  · simp

/-- `str.strip()`: drop whitespace from both ends. -/
def pyStrip (s : Str) : Str :=
  ((s.dropWhile (fun c => decide (c ∈ pyWhitespace))).reverse.dropWhile
    (fun c => decide (c ∈ pyWhitespace))).reverse

/-- `string_utils.clean_label`: translate punctuation to spaces, lower,
collapse space runs, strip. -/
def clean_label (s : Str) : Str :=
  pyStrip (collapseSpaces (pyLower
    (s.map (fun c => if c ∈ pyPunctuation then ' ' else c))))

/-- `Indicator.fuzzy_lookup` specialised to `by=None` (no disaggregation),
over an explicit catalog: exact lookup, then a strict and a loose
substring tier over short keys, lowered keys and lowered ids, then the
label-similarity tier.  With `by=None` the `TypeError` guard passes,
`finalize` reduces to `sorted`, and `disaggregate_inds` is the identity;
`none` models the final `ValueError` (and the `TypeError` from an empty
label list inside `best_matches`). -/
def fuzzy_lookup_noBy (cat : List IndicatorRec) (s : Str)
    (shortest allow_multiple : Bool) : Option (List IndicatorRec) :=
  match lookup cat s with
  | some r => some (pySortInds [r])
  | none =>
    let substrings := pySplit ' ' s
    match interpret_indices cat shortest allow_multiple
        (tier_indices cat strict_key_match substrings) with
    | some r => some (pySortInds r)
    | none =>
      match interpret_indices cat shortest allow_multiple
          (tier_indices cat loose_key_match substrings) with
      | some r => some (pySortInds r)
      | none =>
        match best_matches s (cat.map (fun c => clean_label c.label)) with
        | none => none
        | some indices =>
          match interpret_indices cat shortest allow_multiple indices with
          | some r => some (pySortInds r)
          | none => none

end Uis

namespace MakeDict

/-- Python `s.replace(find, repl)`: replace all non-overlapping occurrences
left to right (only ever called with a non-empty `find`; an empty `find`
returns the string unchanged here). -/
def pyReplace (find repl : Str) : Str → Str
  | [] => []
  | c :: rest =>
    if h : find ≠ [] ∧ find.isPrefixOf (c :: rest) then
      repl ++ pyReplace find repl ((c :: rest).drop find.length)
    else
      c :: pyReplace find repl rest
termination_by s => s.length
decreasing_by
  · have hlen : 0 < find.length := List.length_pos.2 h.1
    simp only [List.length_drop, List.length_cons]
    omega
  · simp

/-- Dict assignment `d[k] = v`: update in place if the key exists, else
append (Python dict insertion-order semantics). -/
def pyDictSet {α : Type u} (d : List (Str × α)) (k : Str) (v : α) :
    List (Str × α) :=
  if (d.find? (fun kv => kv.1 = k)).isSome then
    d.map (fun kv => if kv.1 = k then (k, v) else kv)
  else
    d ++ [(k, v)]

/-- `itertools.product` over a list of candidate lists. -/
def pyProduct : List (List α) → List (List α)
  | [] => [[]]
  | l :: ls => l.flatMap (fun x => (pyProduct ls).map (x :: ·))

/-- `remove` of `abbreviate_combo` / `short_key_to_combo`. -/
def remove : List Str :=
  ["_T".data, "_Z".data, "INST_T".data, "W00".data, "_X".data, "PT".data,
   "SCH_AGE_GROUP".data]

/-- `dont_remove`: over-rides `remove` in specific cases. -/
def dont_remove : List (Str × Str) :=
  [("EDU_FIELD".data, "_X".data), ("COUNTRY_ORIGIN".data, "PT".data)]

/-- `mangle`: values altered to a field-specific code. -/
def mangle : List Str := ["_U".data]

/-- `replace = {"EDU_LEVEL": ("L", "")}`. -/
def replaceMap : List (Str × (Str × Str)) :=
  [("EDU_LEVEL".data, ("L".data, "".data))]

/-- The per-entry rule of `abbreviate_combo`: drop removable defaults,
mangle `_U` to `{dim}__U`, apply the replace rule, else keep the value. -/
def abbreviate_value (k v : Str) : Str :=
  if decide (v ∈ remove) && !decide ((k, v) ∈ dont_remove) then []
  else if decide (v ∈ mangle) then k ++ '_' :: v
  else
    match pyGet replaceMap k with
    | some fr => pyReplace fr.1 fr.2 v
    | none => v

/-- `make_uis_indicator_dict.abbreviate_combo`. -/
def abbreviate_combo (combo : List (Str × Str)) : List (Str × Str) :=
  combo.map (fun kv => (kv.1, abbreviate_value kv.1 kv.2))

/-- `make_uis_indicator_dict.shorten_sdmx_key`: drop empty parts, lower-case
the rest and join with `-`. -/
def shorten_sdmx_key (key : Str) : Str :=
  pyJoin '-' (((pySplit '.' key).filter (fun p => !p.isEmpty)).map pyLower)

/-- Modelled from the spec: `dict_to_sdmx_key` comes from the `uis_spec`
module, which is not in the repository; per the spec (§3, §4.1) an SDMX key
joins the dimension values with `.` in canonical dimension order, and the
combo dictionaries hold their dimensions in that canonical order. -/
def dict_to_sdmx_key (combo : List (Str × Str)) : Str :=
  pyJoin '.' (combo.map (fun kv => kv.2))

/-- Python truthiness of `value_matches_dim`'s result (a non-empty string). -/
def pyTruthyStr : Option Str → Bool
  | some (_ :: _) => true
  | _ => false

/-- `make_uis_indicator_dict.value_matches_dim`: whether a short-key token
can denote the given dimension, returning the denoted possible value. -/
def value_matches_dim (value dim_id : Str) (possible : List Str) :
    Option Str :=
  if decide (value ∈ possible) then some value
  else
    match (mangle.filter (fun mv => decide (mv ∈ possible))).find?
        (fun mv => value == dim_id ++ '_' :: mv) with
    | some mv => some mv
    | none =>
      match pyGet replaceMap dim_id with
      | some fr => possible.find? (fun v => value == pyReplace fr.1 fr.2 v)
      | none => none

/-- A value of a candidate combo dict produced by `short_key_to_combo`:
a string, Python `None`, or a list of unspecified possible values. -/
inductive ComboVal where
  | str : Str → ComboVal
  | noneVal : ComboVal
  | vals : List Str → ComboVal
deriving DecidableEq

/-- `ordered` (local to `short_key_to_combo`): the chosen dimensions appear
in canonical order. -/
def orderedDims (dims : List Str) (s : List Str) : Bool :=
  (s.zip s.tail).all (fun ab => dims.indexOf ab.1 < dims.indexOf ab.2)

/-- `unspecified_value` (local to `short_key_to_combo`): removable values
that are possible for the dimension.  (Python builds this via a set
intersection whose iteration order is unspecified; the claims never depend
on the order, and this model fixes the `remove`-list order.) -/
def unspecified_value (d : Str) (possible : List Str) : List Str :=
  (remove.filter (fun v => !decide ((d, v) ∈ dont_remove))).filter
    (fun v => decide (v ∈ possible))

/-- `make_uis_indicator_dict.short_key_to_combo`.  `dimension_ids` is a
module-level global that the file never defines (it comes from the missing
`uis_spec` module / cache), so it is taken as a parameter here, as are the
possible-values table and the dropped-dimensions list. -/
def short_key_to_combo (key : Str) (possible : Str → List Str)
    (dimension_ids : List Str) (dropped_dims : List (Str × Str × Str)) :
    List (List (Str × ComboVal)) :=
  let spec_values0 := (pySplit '-' key).map pyUpper
  let stat_unit := spec_values0.headD []
  let spec_values := spec_values0.tail
  if !decide (stat_unit ∈ possible "STAT_UNIT".data) then []
  else
    let dont_use : List Str :=
      ["STAT_UNIT".data, "REF_AREA".data, "TIME_PERIOD".data]
    let dims := dimension_ids.filter (fun d => !decide (d ∈ dont_use))
    let dropped_dict : List (Str × Str) :=
      dropped_dims.foldl
        (fun acc sdv =>
          if sdv.1 = stat_unit then pyDictSet acc sdv.2.1 sdv.2.2 else acc)
        []
    let step := fun (acc : List (List Str) × List Str) (value : Str) =>
      let possible_dims := dims.filter (fun d =>
        pyTruthyStr (value_matches_dim value d (possible d))
        && !decide (d ∈ acc.2)
        && !(pyGet dropped_dict d).isSome)
      let fixed :=
        if possible_dims.length = 1 then acc.2 ++ [possible_dims.headD []]
        else acc.2
      (acc.1 ++ [possible_dims], fixed)
    let possible_dims_for_each_value := (spec_values.foldl step ([], [])).1
    (pyProduct possible_dims_for_each_value).filterMap
      (fun dim_combination =>
        if orderedDims dims dim_combination then
          let dc0 := (dim_combination.zip spec_values).foldl
            (fun acc kv => pyDictSet acc kv.1 (ComboVal.str kv.2)) []
          let dc1 := pyDictSet dc0 "STAT_UNIT".data (ComboVal.str stat_unit)
          let dc2 := dims.foldl
            (fun acc d =>
              match pyGet acc d with
              | some (ComboVal.str v) =>
                pyDictSet acc d
                  (match value_matches_dim v d (possible d) with
                   | some w => ComboVal.str w
                   | Option.none => ComboVal.noneVal)
              | some _ => acc
              | Option.none =>
                pyDictSet acc d (ComboVal.vals (unspecified_value d (possible d))))
            dc1
          some dc2
        else Option.none)

end MakeDict

/-! ## Proof-support definitions (index bookkeeping, not from the source) -/

/-- The index of `k` corresponding to index `m` of `k.eraseIdx j`
(skipping over the removed position `j`). -/
def growFin (k : List α) (j : Nat) (hj : j < k.length)
    (m : Fin (k.eraseIdx j).length) : Fin k.length :=
  ⟨if m.val < j then m.val else m.val + 1, by
    have hl : (k.eraseIdx j).length = k.length - 1 := by
      rw [List.length_eraseIdx, if_pos hj]
    have hm : m.val < k.length - 1 := lt_of_lt_of_eq m.isLt hl
    split <;> omega⟩

/-- The index of `k.eraseIdx j` corresponding to an index `m ≠ j` of `k`. -/
def shrinkFin (k : List α) (j : Nat) (hj : j < k.length)
    (m : Fin k.length) (hne : m.val ≠ j) : Fin (k.eraseIdx j).length :=
  ⟨if m.val < j then m.val else m.val - 1, by
    have hm := m.isLt
    have hl : (k.eraseIdx j).length = k.length - 1 := by
      rw [List.length_eraseIdx, if_pos hj]
    rw [hl]
    split <;> omega⟩

/-! ## Theorems -/

theorem pySplit_ne_nil (sep : Char) (s : Str) : pySplit sep s ≠ [] := by
  induction s with
  | nil => simp [pySplit]
  | cons c rest ih =>
    simp only [pySplit]
    split
    · simp
    · match h : pySplit sep rest with
      | [] => simp
      | w :: ws => simp

/-- Splitting a separator-free string yields the single-part list. -/
theorem pySplit_no_sep (sep : Char) (w : Str) (hw : sep ∉ w) :
    pySplit sep w = [w] := by
  induction w with
  | nil => rfl
  | cons c cs ih =>
    have hc : ¬ (c = sep) := fun h => hw (by simp [h])
    have hcs : sep ∉ cs := fun h => hw (by simp [h])
    simp only [pySplit, if_neg hc, ih hcs]

/-- Splitting past a separator-free prefix followed by a separator. -/
theorem pySplit_append_sep (sep : Char) (w t : Str) (hw : sep ∉ w) :
    pySplit sep (w ++ sep :: t) = w :: pySplit sep t := by
  induction w with
  | nil => simp [pySplit]
  | cons c cs ih =>
    have hc : ¬ (c = sep) := fun h => hw (by simp [h])
    have hcs : sep ∉ cs := fun h => hw (by simp [h])
    simp only [List.cons_append, pySplit, if_neg hc, List.append_eq, ih hcs]

/-- Splitting undoes joining when no part contains the separator and the
part list is non-empty. -/
theorem pySplit_pyJoin (sep : Char) (parts : List Str)
    (hne : parts ≠ []) (hsep : ∀ p ∈ parts, sep ∉ p) :
    pySplit sep (pyJoin sep parts) = parts := by
  induction parts with
  | nil => simp at hne
  | cons w ws ih =>
    have hw : sep ∉ w := hsep w (by simp)
    match ws with
    | [] => exact pySplit_no_sep sep w hw
    | v :: vs =>
      have hrec : pySplit sep (pyJoin sep (v :: vs)) = v :: vs :=
        ih (by simp) (fun p hp => hsep p (by simp [hp]))
      show pySplit sep (w ++ sep :: pyJoin sep (v :: vs)) = w :: v :: vs
      rw [pySplit_append_sep sep w _ hw, hrec]

namespace Uis

/-- An entry of `removals l` is an element together with the rest of the
list: the original list is a permutation of the element consed on the rest. -/
theorem perm_of_mem_removals {α : Type u} {l : List α} {x : α} {rest : List α}
    (h : (x, rest) ∈ removals l) : l.Perm (x :: rest) := by
  induction l generalizing x rest with
  | nil => simp [removals] at h
  | cons y ys ih =>
    simp only [removals, List.mem_cons, List.mem_map] at h
    rcases h with h | ⟨⟨x', rest'⟩, hmem, heq⟩
    · simp only [Prod.mk.injEq] at h
      obtain ⟨rfl, rfl⟩ := h
      exact List.Perm.refl _
    · simp only [Prod.mk.injEq] at heq
      obtain ⟨rfl, rfl⟩ := heq
      exact ((ih hmem).cons y).trans (List.Perm.swap x' y rest')

/-- Conversely, every member of the list gives rise to a removal entry. -/
theorem exists_mem_removals_of_mem {α : Type u} {l : List α} {x : α} (h : x ∈ l) :
    ∃ rest, (x, rest) ∈ removals l ∧ l.Perm (x :: rest) := by
  induction l with
  | nil => simp at h
  | cons y ys ih =>
    rcases List.mem_cons.1 h with rfl | h'
    · exact ⟨ys, by simp [removals], List.Perm.refl _⟩
    · obtain ⟨rest', hmem, hperm⟩ := ih h'
      refine ⟨y :: rest', ?_, ?_⟩
      · simp only [removals, List.mem_cons, List.mem_map]
        exact Or.inr ⟨(x, rest'), hmem, rfl⟩
      · exact (hperm.cons y).trans (List.Perm.swap x y rest')

/-- Membership in the modelled `itertools.permutations(l, r)`: exactly the
lists of length `r` that are sub-permutations of `l` (an injective,
order-arbitrary selection of distinct positions). -/
theorem mem_pyPermutations {α : Type u} {r : Nat} {l p : List α} :
    p ∈ pyPermutations l r ↔ p.length = r ∧ p.Subperm l := by
  induction r generalizing l p with
  | zero =>
    simp only [pyPermutations, List.mem_singleton]
    constructor
    · rintro rfl; exact ⟨rfl, List.nil_subperm⟩
    · rintro ⟨hlen, _⟩; exact List.eq_nil_of_length_eq_zero hlen
  | succ r ih =>
    simp only [pyPermutations, List.mem_flatMap, List.mem_map]
    constructor
    · rintro ⟨⟨x, rest⟩, hmem, q, hq, rfl⟩
      obtain ⟨hlen, hsub⟩ := ih.1 hq
      refine ⟨by simp [hlen], ?_⟩
      have h1 : (x :: q).Subperm (x :: rest) := (List.subperm_cons x).2 hsub
      exact h1.trans (perm_of_mem_removals hmem).symm.subperm
    · rintro ⟨hlen, hsub⟩
      match p, hlen with
      | x :: q, hlen =>
        have hx : x ∈ l := hsub.subset (List.mem_cons_self x q)
        obtain ⟨rest, hmem, hperm⟩ := exists_mem_removals_of_mem hx
        have hsub' : (x :: q).Subperm (x :: rest) :=
          hsub.trans hperm.subperm
        have hq : q ∈ pyPermutations rest r :=
          ih.2 ⟨by simpa using hlen, (List.subperm_cons x).1 hsub'⟩
        exact ⟨(x, rest), hmem, q, hq, rfl⟩

/-- Optional indexing into `eraseIdx` in terms of the original list
(unconditional, hence free of dependent index proofs). -/
theorem getElem?_eraseIdx_split {α : Type u} (k : List α) (j m : Nat) :
    (k.eraseIdx j)[m]? = if m < j then k[m]? else k[m + 1]? := by
  induction k generalizing j m with
  | nil => simp [List.eraseIdx]
  | cons a as ih =>
    match j with
    | 0 => simp [List.eraseIdx]
    | j + 1 =>
      match m with
      | 0 => simp [List.eraseIdx]
      | m + 1 =>
        simp only [List.eraseIdx, List.getElem?_cons_succ, ih j m]
        by_cases h : m < j
        · rw [if_pos h, if_pos (by omega)]
        · rw [if_neg h, if_neg (by omega)]

/-- Removing position `j` leaves a permutation of the list without that
occurrence. -/
theorem perm_getElem_cons_eraseIdx {α : Type u} (k : List α) (j : Nat) (hj : j < k.length) :
    k.Perm (k[j] :: k.eraseIdx j) := by
  conv_lhs => rw [← List.take_append_drop j k, List.drop_eq_getElem_cons hj]
  rw [List.eraseIdx_eq_take_drop_succ]
  exact List.perm_middle

theorem growFin_ne {α : Type u} {k : List α} {j : Nat} (hj : j < k.length)
    (m : Fin (k.eraseIdx j).length) : (growFin k j hj m).val ≠ j := by
  simp only [growFin]
  split <;> omega

theorem growFin_injective {α : Type u} (k : List α) (j : Nat) (hj : j < k.length) :
    Function.Injective (growFin k j hj) := by
  intro m₁ m₂ h
  rw [Fin.ext_iff] at h ⊢
  simp only [growFin] at h
  split at h <;> split at h <;> omega

theorem get_eq_some_getElem? {α : Type u} (l : List α) (m : Fin l.length) :
    l[m.val]? = some (l.get m) := by
  rw [List.getElem?_eq_getElem m.isLt, List.get_eq_getElem]

theorem get_growFin {α : Type u} {k : List α} {j : Nat} (hj : j < k.length)
    (m : Fin (k.eraseIdx j).length) :
    k.get (growFin k j hj m) = (k.eraseIdx j).get m := by
  apply Option.some.inj
  rw [← get_eq_some_getElem? k (growFin k j hj m),
    ← get_eq_some_getElem? (k.eraseIdx j) m, getElem?_eraseIdx_split]
  show k[if m.val < j then m.val else m.val + 1]? = _
  by_cases h : m.val < j
  · rw [if_pos h, if_pos h]
  · rw [if_neg h, if_neg h]

theorem get_shrinkFin {α : Type u} {k : List α} {j : Nat} (hj : j < k.length)
    (m : Fin k.length) (hne : m.val ≠ j) :
    (k.eraseIdx j).get (shrinkFin k j hj m hne) = k.get m := by
  apply Option.some.inj
  rw [← get_eq_some_getElem? (k.eraseIdx j) (shrinkFin k j hj m hne),
    ← get_eq_some_getElem? k m, getElem?_eraseIdx_split]
  show (if (if m.val < j then m.val else m.val - 1) < j
        then k[if m.val < j then m.val else m.val - 1]?
        else k[(if m.val < j then m.val else m.val - 1) + 1]?) = k[m.val]?
  by_cases h : m.val < j
  · rw [if_pos h, if_pos h]
  · rw [if_neg h, if_neg (by omega)]
    congr 1
    omega

theorem shrinkFin_inj {α : Type u} {k : List α} {j : Nat} (hj : j < k.length)
    {m₁ m₂ : Fin k.length} (h₁ : m₁.val ≠ j) (h₂ : m₂.val ≠ j)
    (h : shrinkFin k j hj m₁ h₁ = shrinkFin k j hj m₂ h₂) : m₁ = m₂ := by
  rw [Fin.ext_iff] at h ⊢
  simp only [shrinkFin] at h
  split at h <;> split at h <;> omega

/-- A sub-permutation is the same thing as an injective, value-preserving
assignment of the indices of the first list to indices of the second. -/
theorem subperm_iff_inj_assignment {α : Type u} {s k : List α} :
    s.Subperm k ↔
      ∃ f : Fin s.length → Fin k.length,
        Function.Injective f ∧ ∀ i, s.get i = k.get (f i) := by
  induction s generalizing k with
  | nil =>
    simp only [List.nil_subperm, true_iff]
    exact ⟨fun i => i.elim0, fun i => i.elim0, fun i => i.elim0⟩
  | cons a t ih =>
    constructor
    · intro hsub
      have ha : a ∈ k := hsub.subset (List.mem_cons_self a t)
      obtain ⟨j, hj⟩ := List.mem_iff_get.1 ha
      have hperm : k.Perm (a :: k.eraseIdx j.val) := by
        have := perm_getElem_cons_eraseIdx k j.val j.isLt
        rwa [← List.get_eq_getElem, hj] at this
      have hsub' : t.Subperm (k.eraseIdx j.val) :=
        (List.subperm_cons a).1 (hsub.trans hperm.subperm)
      obtain ⟨g, ginj, gval⟩ := ih.1 hsub'
      refine ⟨fun i => Fin.cases j (fun i' => growFin k j.val j.isLt (g i')) i,
        ?_, ?_⟩
      · intro i₁ i₂ h12
        induction i₁ using Fin.cases with
        | zero =>
          induction i₂ using Fin.cases with
          | zero => rfl
          | succ b =>
            simp only [Fin.cases_zero, Fin.cases_succ] at h12
            have := growFin_ne j.isLt (g b)
            rw [← h12] at this
            exact absurd rfl this
        | succ a' =>
          induction i₂ using Fin.cases with
          | zero =>
            simp only [Fin.cases_zero, Fin.cases_succ] at h12
            have := growFin_ne j.isLt (g a')
            rw [h12] at this
            exact absurd rfl this
          | succ b =>
            simp only [Fin.cases_succ] at h12
            rw [ginj (growFin_injective k j.val j.isLt h12)]
      · intro i
        induction i using Fin.cases with
        | zero =>
          simp only [Fin.cases_zero]
          rw [← hj]
          rfl
        | succ i' =>
          simp only [Fin.cases_succ]
          rw [get_growFin j.isLt (g i'), ← gval i']
          rfl
    · rintro ⟨f, finj, fval⟩
      have hzlt : 0 < (a :: t).length := Nat.succ_pos t.length
      have hj := (f ⟨0, hzlt⟩).isLt
      have ha : a = k.get (f ⟨0, hzlt⟩) := by
        rw [← fval ⟨0, hzlt⟩]
        rfl
      have hne : ∀ i : Fin t.length, (f i.succ).val ≠ (f ⟨0, hzlt⟩).val := by
        intro i hc
        have heq : f i.succ = f ⟨0, hzlt⟩ := Fin.ext hc
        have := congrArg Fin.val (finj heq)
        simp [Fin.val_succ] at this
      have hsub' : t.Subperm (k.eraseIdx (f ⟨0, hzlt⟩).val) := by
        refine ih.2 ⟨fun i =>
          shrinkFin k (f ⟨0, hzlt⟩).val hj (f i.succ) (hne i), ?_, ?_⟩
        · intro i₁ i₂ h12
          have h1 := shrinkFin_inj hj (hne i₁) (hne i₂) h12
          have h2 := finj h1
          exact Fin.succ_injective _ h2
        · intro i
          rw [get_shrinkFin hj (f i.succ) (hne i)]
          exact fval i.succ
      have hperm : k.Perm (a :: k.eraseIdx (f ⟨0, hzlt⟩).val) := by
        have hmid := perm_getElem_cons_eraseIdx k (f ⟨0, hzlt⟩).val hj
        rwa [← List.get_eq_getElem, ← ha] at hmid
      exact ((List.subperm_cons a).2 hsub').trans hperm.symm.subperm

end Uis


/-! ## Claim C3 -/

/-- C3: for every list of query tokens and every list of key parts,
`strict_key_match` returns true if and only if there is an injective
assignment of every query token to a distinct key part such that each token
is verbatim equal to its assigned part; the order of tokens is irrelevant
and unassigned key parts are permitted. -/
theorem strict_key_match_iff_injective_assignment (s k : List Str) :
    Uis.strict_key_match s k = true ↔
      ∃ f : Fin s.length → Fin k.length,
        Function.Injective f ∧ ∀ i, s.get i = k.get (f i) := by
  rw [← Uis.subperm_iff_inj_assignment]
  unfold Uis.strict_key_match
  cases hc : s.any (fun t => !decide (t ∈ k)) with
  | true =>
    rw [if_pos rfl]
    simp only [Bool.false_eq_true, false_iff]
    simp only [List.any_eq_true, Bool.not_eq_true', decide_eq_false_iff_not]
      at hc
    obtain ⟨t, ht, htk⟩ := hc
    intro hsub
    exact htk (hsub.subset ht)
  | false =>
    rw [if_neg (by simp), decide_eq_true_eq, Uis.mem_pyPermutations]
    simp

/-! ## Claim C8 -/

/-- C8: for all short-key part lists `a` and `b`, `is_ancestor a b` and
`is_ancestor b a` are never both true (the relation is asymmetric). -/
theorem is_ancestor_asymmetric (a b : List Str) :
    (((Uis.is_ancestor a b).getD false) &&
      ((Uis.is_ancestor b a).getD false)) = false := by
  match a, b with
  | [], [] => rfl
  | [], _ :: _ => rfl
  | _ :: _, [] => rfl
  | x :: xs, y :: ys =>
    simp only [Uis.is_ancestor, List.head?_cons, Option.getD_some]
    cases h1 : Uis.pyIsSubsetB (x :: xs) (y :: ys) <;>
      cases h2 : Uis.pyIsSubsetB (y :: ys) (x :: xs) <;>
      simp [h1, h2]

/-! ## Claim C10 -/

/-- C10: `get_root x keys` yields a result only when `x` has a proper
ancestor in `keys` (the result is itself such an ancestor, and is never `x`
itself); when `x` has no ancestor in the collection, `get_root` returns
`none`. -/
theorem get_root_requires_proper_ancestor (x : Str) (keys : List Str) :
    (∀ r, Uis.get_root x keys = some r →
        r ∈ keys ∧
        Uis.is_ancestor (pySplit '-' r) (pySplit '-' x) = some true ∧
        r ≠ x)
    ∧ ((∀ k ∈ keys,
          Uis.is_ancestor (pySplit '-' k) (pySplit '-' x) ≠ some true) →
        Uis.get_root x keys = none) := by
  constructor
  · intro r hr
    unfold Uis.get_root at hr
    have hmem := List.mem_of_find?_eq_some hr
    simp only [Uis.get_relations, if_neg (by simp : ¬(false = true)),
      List.mem_filter, beq_iff_eq] at hmem
    obtain ⟨hkeys, hanc⟩ := hmem
    refine ⟨hkeys, hanc, ?_⟩
    rintro rfl
    match hsplit : pySplit '-' r with
    | [] => exact pySplit_ne_nil '-' r hsplit
    | h0 :: t =>
      rw [hsplit] at hanc
      simp [Uis.is_ancestor, Bool.and_not_self] at hanc
  · intro h
    have hrel : Uis.get_relations x keys Uis.is_ancestor = [] := by
      simp only [Uis.get_relations, if_neg (by simp : ¬(false = true))]
      rw [List.filter_eq_nil_iff]
      intro k hk
      simp only [beq_iff_eq]
      exact h k hk
    unfold Uis.get_root
    rw [hrel]
    rfl

/-- Witness for C10 at concrete inputs: `get_root "nera-f" ["nera",
"nera-f-rur"]` returns the proper ancestor `"nera"`, and `get_root "nera"
["nera-f-rur"]` (no ancestor present) returns `none`. -/
theorem get_root_requires_proper_ancestor_witness :
    ("nera".data ∈ ["nera".data, "nera-f-rur".data] ∧
      Uis.is_ancestor (pySplit '-' "nera".data)
        (pySplit '-' "nera-f".data) = some true ∧
      "nera".data ≠ "nera-f".data)
    ∧ Uis.get_root "nera".data ["nera-f-rur".data] = none :=
  ⟨(get_root_requires_proper_ancestor "nera-f".data
      ["nera".data, "nera-f-rur".data]).1 "nera".data (by decide),
   (get_root_requires_proper_ancestor "nera".data
      ["nera-f-rur".data]).2 (by decide)⟩

/-! ## Helper lemmas for the Filter claims -/

namespace SdmxApi

theorem pyGet_map_self {α : Type u} (ds : List Str) (g : Str → α) (k : Str)
    (hk : k ∈ ds) : pyGet (ds.map (fun d => (d, g d))) k = some (g k) := by
  induction ds with
  | nil => simp at hk
  | cons d ds ih =>
    by_cases h : d = k
    · subst h
      simp [pyGet]
    · rcases List.mem_cons.1 hk with rfl | hk'
      · exact absurd rfl h
      · simp only [List.map_cons, pyGet] at ih ⊢
        rw [List.find?_cons_of_neg _ (by simp [h])]
        exact ih hk'

theorem zip_map_self (ds : List Str) (v : Str → Str) :
    ds.zip (ds.map v) = ds.map (fun d => (d, v d)) := by
  simpa using List.zip_map' id v ds

theorem zip_eq_take_zip {α β : Type u} (l₁ : List α) (l₂ : List β) :
    l₁.zip l₂ = (l₁.take l₂.length).zip l₂ := by
  induction l₁ generalizing l₂ with
  | nil => simp
  | cons a l₁ ih =>
    match l₂ with
    | [] => rfl
    | b :: l₂ => simp [List.zip_cons_cons, ih l₂]

theorem extract_dims_map_of_is_dim {α : Type u} (f : Filter) (ds : List Str)
    (g : Str → α) (hd : ∀ d ∈ ds, f.is_dim d true = true) :
    f.extract_dims (ds.map (fun d => (d, g d))) true =
      ds.map (fun d => (pyUpper d, g d)) := by
  induction ds with
  | nil => rfl
  | cons d ds ih =>
    have hcond : f.is_dim d true = true := hd d (by simp)
    simp only [Filter.extract_dims] at ih ⊢
    rw [List.map_cons, List.filter_cons_of_pos (by simpa using hcond),
      List.map_cons]
    congr 1
    exact ih (fun d' hd' => hd d' (by simp [hd']))

theorem extract_dims_zip_of_is_dim (f : Filter) (ds parts : List Str)
    (hd : ∀ d ∈ ds.take parts.length,
      f.is_dim d true = true ∧ pyUpper d = d) :
    f.extract_dims (ds.zip parts) true = ds.zip parts := by
  induction ds generalizing parts with
  | nil => rfl
  | cons d ds ih =>
    match parts with
    | [] => rfl
    | p :: ps =>
      obtain ⟨h1, h2⟩ := hd d (by simp)
      simp only [Filter.extract_dims] at ih ⊢
      rw [List.zip_cons_cons, List.filter_cons_of_pos (by simpa using h1),
        List.map_cons]
      show (pyUpper d, p) :: _ = _
      rw [h2]
      congr 1
      exact ih ps (fun d' hd' => hd d' (by simp [hd']))

/-- The concrete indicator dimensions of the UIS filter. -/
theorem uisFilter_ind_dims :
    uisFilter.ind_dims =
      ["STAT_UNIT".data, "UNIT_MEASURE".data, "EDU_LEVEL".data,
       "EDU_CAT".data, "SEX".data, "AGE".data, "GRADE".data,
       "SECTOR_EDU".data, "EDU_ATTAIN".data, "WEALTH_QUINTILE".data,
       "LOCATION".data, "EDU_TYPE".data, "EDU_FIELD".data, "SUBJECT".data,
       "INFRASTR".data, "SE_BKGRD".data, "TEACH_EXPERIENCE".data,
       "CONTRACT_TYPE".data, "COUNTRY_ORIGIN".data, "REGION_DEST".data,
       "IMM_STATUS".data] := by decide

theorem uisFilter_all_dims_split :
    uisFilter.all_dims = uisFilter.ind_dims ++ ["REF_AREA".data] := by decide

end SdmxApi

/-! ## Claim C1 -/

/-- C1: for every value map assigning a scalar (separator-free) string to
each indicator dimension of the configured UIS dimension list, converting
the value map to a key with `dict_to_key` and back with `key_to_dict`
yields the value map restricted to the indicator dimensions, with the
dimension names upper-cased. -/
theorem filter_key_roundtrip (v : Str → Str)
    (hdot : ∀ d ∈ SdmxApi.uisFilter.ind_dims, '.' ∉ v d) :
    SdmxApi.uisFilter.key_to_dict
      (SdmxApi.uisFilter.dict_to_key
        (SdmxApi.uisFilter.ind_dims.map
          (fun d => (d, SdmxApi.PyVal.str (v d)))) true) true
    = SdmxApi.uisFilter.ind_dims.map (fun d => (pyUpper d, v d)) := by
  set F := SdmxApi.uisFilter with hF
  have hne : F.ind_dims ≠ [] := by rw [hF, SdmxApi.uisFilter_ind_dims]; simp
  have hkey : F.dict_to_key
      (F.ind_dims.map (fun d => (d, SdmxApi.PyVal.str (v d)))) true =
      pyJoin '.' (F.ind_dims.map v) := by
    rw [SdmxApi.Filter.dict_to_key, if_pos (by simp [hne])]
    show pyJoin '.' (F.ind_dims.map _) = _
    congr 1
  rw [hkey, SdmxApi.Filter.key_to_dict]
  have hsplit : pySplit '.' (pyJoin '.' (F.ind_dims.map v)) =
      F.ind_dims.map v := by
    apply pySplit_pyJoin
    · simpa using hne
    · intro p hp
      obtain ⟨d, hd, rfl⟩ := List.mem_map.1 hp
      exact hdot d hd
  rw [hsplit, SdmxApi.uisFilter_all_dims_split]
  have hlen : SdmxApi.uisFilter.ind_dims.length =
      (SdmxApi.uisFilter.ind_dims.map v).length := by simp
  rw [show (SdmxApi.uisFilter.ind_dims.map v) =
    (SdmxApi.uisFilter.ind_dims.map v) ++ [] by simp]
  rw [List.zip_append hlen]
  simp only [List.zip_nil_right, List.append_nil]
  rw [SdmxApi.zip_map_self]
  exact SdmxApi.extract_dims_map_of_is_dim _ _ _ (by decide)

/-- Witness for C1 at a concrete value map (constant value `"X"`). -/
theorem filter_key_roundtrip_witness :
    SdmxApi.uisFilter.key_to_dict
      (SdmxApi.uisFilter.dict_to_key
        (SdmxApi.uisFilter.ind_dims.map
          (fun d => (d, SdmxApi.PyVal.str ((fun _ => "X".data) d)))) true) true
    = SdmxApi.uisFilter.ind_dims.map
        (fun d => (pyUpper d, (fun _ => "X".data) d)) :=
  filter_key_roundtrip (fun _ => "X".data) (by decide)

/-! ## Claim C6 -/

/-- C6: when `key_to_dict` receives a key whose number of `.`-separated
parts `k` is smaller than the number of configured dimensions, it raises no
error and returns the map covering exactly the first `k` dimensions in
canonical order (so every later dimension is absent from the result). -/
theorem key_to_dict_truncates_short_key (key : Str) (b : Bool)
    (hk : (pySplit '.' key).length < SdmxApi.uisFilter.all_dims.length) :
    SdmxApi.uisFilter.key_to_dict key b =
      (SdmxApi.uisFilter.all_dims.take (pySplit '.' key).length).zip
        (pySplit '.' key) := by
  set parts := pySplit '.' key with hparts
  have hlen : SdmxApi.uisFilter.all_dims.length = 22 := by decide
  have hk21 : parts.length ≤ 21 := by omega
  rw [SdmxApi.Filter.key_to_dict,
    SdmxApi.zip_eq_take_zip SdmxApi.uisFilter.all_dims parts]
  apply SdmxApi.extract_dims_zip_of_is_dim
  intro d hd
  have hmem21 : d ∈ SdmxApi.uisFilter.all_dims.take 21 := by
    rw [List.take_take, min_self] at hd
    have h1 : (SdmxApi.uisFilter.all_dims.take 21).take parts.length =
        SdmxApi.uisFilter.all_dims.take parts.length := by
      rw [List.take_take]
      congr 1
      exact min_eq_left hk21
    rw [← h1] at hd
    exact List.take_subset _ _ hd
  have hP : ∀ d' ∈ SdmxApi.uisFilter.all_dims.take 21,
      SdmxApi.uisFilter.is_dim d' true = true ∧ pyUpper d' = d' := by decide
  exact hP d hmem21

/-- Witness for C6 at the concrete two-part key `"NERA.PT"`. -/
theorem key_to_dict_truncates_short_key_witness :
    SdmxApi.uisFilter.key_to_dict "NERA.PT".data true =
      (SdmxApi.uisFilter.all_dims.take
        (pySplit '.' "NERA.PT".data).length).zip
        (pySplit '.' "NERA.PT".data) :=
  key_to_dict_truncates_short_key "NERA.PT".data true (by decide)

/-! ## Claim C9 -/

/-- C9: `key_to_dict` ignores its `ind` argument, and its result never
contains the coordinate dimensions `REF_AREA` or `TIME_PERIOD`: values
appearing at coordinate-dimension positions of the key are discarded even
when the caller passes `ind=False`.  Stated for an arbitrary configured
dimension list. -/
theorem key_to_dict_ignores_ind_and_coordinates (dims : List Str)
    (key : Str) (b1 b2 : Bool) :
    (SdmxApi.Filter.mk dims).key_to_dict key b1 =
      (SdmxApi.Filter.mk dims).key_to_dict key b2
    ∧ ∀ v : Str,
        ("REF_AREA".data, v) ∉ (SdmxApi.Filter.mk dims).key_to_dict key b1
        ∧ ("TIME_PERIOD".data, v) ∉
            (SdmxApi.Filter.mk dims).key_to_dict key b1 := by
  constructor
  · rfl
  · intro v
    constructor
    · intro hmem
      simp only [SdmxApi.Filter.key_to_dict, SdmxApi.Filter.extract_dims,
        List.mem_map, List.mem_filter] at hmem
      obtain ⟨⟨k0, v0⟩, ⟨hzip, hdim⟩, heq⟩ := hmem
      simp only [Prod.mk.injEq] at heq
      obtain ⟨hk0, rfl⟩ := heq
      rw [SdmxApi.Filter.is_dim, hk0] at hdim
      have hmem' : "REF_AREA".data ∈ (SdmxApi.Filter.mk dims).dims true := by
        have := List.elem_iff.1 hdim
        exact this
      simp only [SdmxApi.Filter.dims, if_true, SdmxApi.Filter.ind_dims,
        List.mem_filter] at hmem'
      have hcontra := hmem'.2
      simp [SdmxApi.nonInd] at hcontra
    · intro hmem
      simp only [SdmxApi.Filter.key_to_dict, SdmxApi.Filter.extract_dims,
        List.mem_map, List.mem_filter] at hmem
      obtain ⟨⟨k0, v0⟩, ⟨hzip, hdim⟩, heq⟩ := hmem
      simp only [Prod.mk.injEq] at heq
      obtain ⟨hk0, rfl⟩ := heq
      rw [SdmxApi.Filter.is_dim, hk0] at hdim
      have hmem' : "TIME_PERIOD".data ∈ (SdmxApi.Filter.mk dims).dims true := by
        have := List.elem_iff.1 hdim
        exact this
      simp only [SdmxApi.Filter.dims, if_true, SdmxApi.Filter.ind_dims,
        List.mem_filter] at hmem'
      have hcontra := hmem'.2
      simp [SdmxApi.nonInd] at hcontra

/-! ## Claims C5 and C7 (key shortening) -/

/-- The head of a split of a join is the first part, whatever follows,
provided the first part is separator-free. -/
theorem pySplit_pyJoin_cons (sep : Char) (s : Str) (vs : List Str)
    (hs : sep ∉ s) :
    ∃ tail, pySplit sep (pyJoin sep (s :: vs)) = s :: tail := by
  match vs with
  | [] => exact ⟨[], pySplit_no_sep sep s hs⟩
  | v :: vs' =>
    refine ⟨pySplit sep (pyJoin sep (v :: vs')), ?_⟩
    show pySplit sep (s ++ sep :: pyJoin sep (v :: vs')) = _
    rw [pySplit_append_sep sep _ _ hs]

/-- C5 (amended): the first hyphen-part of the short key equals the
lower-cased stat-unit value (the first `.`-segment of the full key),
provided the stat-unit value is non-empty, separator-free, and is not one
of the removable codes nor the mangle code `_U` (the `EDU_LEVEL` replace
rule can never touch `STAT_UNIT`).  Without that proviso the shortening
rules can drop or mangle the stat-unit (see the counterexample). -/
theorem short_key_first_part_is_stat_unit (s : Str) (rest : List (Str × Str))
    (h1 : s ∉ MakeDict.remove) (h2 : s ∉ MakeDict.mangle)
    (h3 : s ≠ []) (h4 : '.' ∉ s) (h6 : '-' ∉ pyLower s) :
    (pySplit '-' (MakeDict.shorten_sdmx_key
        (MakeDict.dict_to_sdmx_key
          (MakeDict.abbreviate_combo
            (("STAT_UNIT".data, s) :: rest))))).head? = some (pyLower s)
    ∧ (pySplit '.' (MakeDict.dict_to_sdmx_key
        (("STAT_UNIT".data, s) :: rest))).head? = some s := by
  have habbv : MakeDict.abbreviate_value "STAT_UNIT".data s = s := by
    rw [MakeDict.abbreviate_value, if_neg (by simp [h1]), if_neg (by simp [h2])]
    rfl
  constructor
  · have hform : MakeDict.dict_to_sdmx_key
        (MakeDict.abbreviate_combo (("STAT_UNIT".data, s) :: rest)) =
        pyJoin '.' (s :: (MakeDict.abbreviate_combo rest).map (fun kv => kv.2)) := by
      simp only [MakeDict.abbreviate_combo, MakeDict.dict_to_sdmx_key,
        List.map_cons, habbv]
    rw [hform]
    obtain ⟨tail, htail⟩ := pySplit_pyJoin_cons '.' s _ h4
    rw [MakeDict.shorten_sdmx_key, htail]
    have hfilter : (s :: tail).filter (fun p => !p.isEmpty) =
        s :: tail.filter (fun p => !p.isEmpty) := by
      rw [List.filter_cons_of_pos (by simpa [List.isEmpty_iff] using h3)]
    rw [hfilter, List.map_cons]
    obtain ⟨tail2, htail2⟩ := pySplit_pyJoin_cons '-' (pyLower s) _ h6
    rw [htail2]
    rfl
  · have hform : MakeDict.dict_to_sdmx_key (("STAT_UNIT".data, s) :: rest) =
        pyJoin '.' (s :: rest.map (fun kv => kv.2)) := by
      simp [MakeDict.dict_to_sdmx_key]
    rw [hform]
    obtain ⟨tail, htail⟩ := pySplit_pyJoin_cons '.' s _ h4
    rw [htail]
    rfl

/-- Counterexample to C5 as stated: a combo whose stat-unit value is the
removable code `"PT"` has it dropped by `abbreviate_combo`, so the first
hyphen-part of the short key is not the lower-cased stat-unit. -/
theorem short_key_first_part_counterexample :
    (pySplit '-' (MakeDict.shorten_sdmx_key
        (MakeDict.dict_to_sdmx_key
          (MakeDict.abbreviate_combo
            [("STAT_UNIT".data, "PT".data), ("SEX".data, "F".data)])))).head?
      = some "f".data
    ∧ some "f".data ≠ some (pyLower "PT".data) := by
  constructor
  · rfl
  · decide

/-- Witness for C5 (amended) at a concrete combo. -/
theorem short_key_first_part_is_stat_unit_witness :
    (pySplit '-' (MakeDict.shorten_sdmx_key
        (MakeDict.dict_to_sdmx_key
          (MakeDict.abbreviate_combo
            [("STAT_UNIT".data, "NERA".data),
             ("SEX".data, "_T".data)])))).head? = some (pyLower "NERA".data)
    ∧ (pySplit '.' (MakeDict.dict_to_sdmx_key
        [("STAT_UNIT".data, "NERA".data),
         ("SEX".data, "_T".data)])).head? = some "NERA".data :=
  short_key_first_part_is_stat_unit "NERA".data [("SEX".data, "_T".data)]
    (by decide) (by decide) (by decide) (by decide) (by decide)

/-- C7: `short_key_to_combo` returns the empty candidate list whenever the
upper-cased first hyphen-token of the short key is not among the possible
values of `STAT_UNIT`. -/
theorem short_key_to_combo_rejects_unknown_stat_unit
    (key : Str) (possible : Str → List Str) (dimension_ids : List Str)
    (dropped : List (Str × Str × Str))
    (h : pyUpper ((pySplit '-' key).headD []) ∉ possible "STAT_UNIT".data) :
    MakeDict.short_key_to_combo key possible dimension_ids dropped = [] := by
  rw [MakeDict.short_key_to_combo]
  have hhead : ((pySplit '-' key).map pyUpper).headD [] =
      pyUpper ((pySplit '-' key).headD []) := by
    match hsp : pySplit '-' key with
    | [] => exact absurd hsp (pySplit_ne_nil '-' key)
    | p :: ps => rfl
  rw [hhead, if_pos (by
    simp only [Bool.not_eq_true', decide_eq_false_iff_not]
    exact h)]

/-- Witness for C7: the short key `"zzz-f"` with a possible-values table
whose `STAT_UNIT` values are only `["NERA"]` yields no candidates. -/
theorem short_key_to_combo_rejects_unknown_stat_unit_witness :
    MakeDict.short_key_to_combo "zzz-f".data
      (fun _ => ["NERA".data]) ["STAT_UNIT".data, "SEX".data] [] = [] :=
  short_key_to_combo_rejects_unknown_stat_unit "zzz-f".data
    (fun _ => ["NERA".data]) ["STAT_UNIT".data, "SEX".data] [] (by decide)

/-! ## Support lemmas for the label-similarity tier (C2) -/

namespace Uis

theorem longest_matched_sequence_bounds {a b : List Str} {sa sb len : Nat}
    (hm : longest_matched_sequence a b = some (sa, sb, len)) :
    1 ≤ len ∧ sa + len ≤ a.length := by
  unfold longest_matched_sequence at hm
  obtain ⟨len0, hlen0, h2⟩ := List.exists_of_findSome?_eq_some hm
  obtain ⟨sa0, hsa0, h3⟩ := List.exists_of_findSome?_eq_some h2
  obtain ⟨sb0, hsb0, h4⟩ := List.exists_of_findSome?_eq_some h3
  have h5 : sa0 = sa ∧ sb0 = sb ∧ len0 = len := by
    split at h4
    · have h6 := Option.some.inj h4
      simp only [Prod.mk.injEq] at h6
      exact ⟨h6.1, h6.2.1, h6.2.2⟩
    · simp at h4
  obtain ⟨rfl, rfl, rfl⟩ := h5
  obtain ⟨i, hi, hieq⟩ := List.mem_map.1 hlen0
  rw [List.mem_range] at hi
  rw [List.mem_range] at hsa0
  omega

theorem matchingness_go_eq_num (n : Nat) (a b : List Str) :
    ∀ N, a.length < N →
      matchingness_go n a b =
        (matchingness_num_go N a b).map (fun len : Nat => (len : ℚ) / (n : ℚ)) := by
  induction a, b using matchingness_go.induct n with
  | case1 a b hab =>
    intro N hN
    match N with
    | N + 1 =>
      rw [matchingness_go.eq_def, if_pos hab]
      simp only [matchingness_num_go]
      rw [if_pos hab]
      rfl
  | case2 a b hab hm =>
    intro N hN
    match N with
    | N + 1 =>
      rw [matchingness_go.eq_def, if_neg hab]
      simp only [matchingness_num_go]
      rw [if_neg hab]
      split
      · rw [hm]
        rfl
      · rename_i sa sb len hm2
        rw [hm] at hm2
        simp at hm2
  | case3 a b hab sa sb len hm ih =>
    intro N hN
    match N with
    | N + 1 =>
      rw [matchingness_go.eq_def, if_neg hab]
      simp only [matchingness_num_go]
      rw [if_neg hab]
      split
      · rename_i hm2
        rw [hm] at hm2
        simp at hm2
      · rename_i sa' sb' len' hm2
        rw [hm] at hm2
        have h6 := Option.some.inj hm2
        simp only [Prod.mk.injEq] at h6
        obtain ⟨rfl, rfl, rfl⟩ := h6
        rw [hm, List.map_cons]
        congr 1
        have hb := longest_matched_sequence_bounds hm
        apply ih
        simp only [List.length_append, List.length_take, List.length_drop]
        omega

theorem matchingness_eq_num (a b : List Str) :
    matchingness a b =
      (matchingness_num a b).map (fun len : Nat => (len : ℚ) / (a.length : ℚ)) := by
  rw [matchingness, matchingness_num]
  exact matchingness_go_eq_num a.length a b (a.length + 1) (by omega)

theorem pyLexGtQ_map_div (n : Nat) (hn : 0 < n) (xs ys : List Nat) :
    pyLexGtQ (xs.map (fun len : Nat => (len : ℚ) / (n : ℚ)))
        (ys.map (fun len : Nat => (len : ℚ) / (n : ℚ))) = pyLexGtNat xs ys := by
  induction xs generalizing ys with
  | nil => match ys with
    | [] => rfl
    | y :: ys => rfl
  | cons x xs ih =>
    match ys with
    | [] => rfl
    | y :: ys =>
      have hnq : (0 : ℚ) < (n : ℚ) := by exact_mod_cast hn
      simp only [List.map_cons, pyLexGtQ, pyLexGtNat]
      have hgt : ((x : ℚ) / n > (y : ℚ) / n) ↔ x > y := by
        rw [gt_iff_lt, div_lt_div_iff_of_pos_right hnq]
        exact_mod_cast Iff.rfl
      have hlt : ((y : ℚ) / n > (x : ℚ) / n) ↔ y > x := by
        rw [gt_iff_lt, div_lt_div_iff_of_pos_right hnq]
        exact_mod_cast Iff.rfl
      by_cases h1 : x > y
      · rw [if_pos h1, if_pos (hgt.2 h1)]
      · rw [if_neg h1, if_neg (fun hc => h1 (hgt.1 hc))]
        by_cases h2 : y > x
        · rw [if_pos h2, if_pos (hlt.2 h2)]
        · rw [if_neg h2, if_neg (fun hc => h2 (hlt.1 hc))]
          exact ih ys

theorem map_div_inj_eq (n : Nat) (hn : 0 < n) (xs ys : List Nat) :
    decide (xs.map (fun len : Nat => (len : ℚ) / (n : ℚ)) =
        ys.map (fun len : Nat => (len : ℚ) / (n : ℚ))) = decide (xs = ys) := by
  have hnq : (0 : ℚ) < (n : ℚ) := by exact_mod_cast hn
  have hinj : Function.Injective (fun len : Nat => (len : ℚ) / (n : ℚ)) := by
    intro x y hxy
    simp only at hxy
    rw [div_eq_div_iff (ne_of_gt hnq) (ne_of_gt hnq)] at hxy
    have hq : (x : ℚ) = (y : ℚ) := mul_right_cancel₀ (ne_of_gt hnq) hxy
    exact_mod_cast hq
  refine decide_eq_decide.2 ⟨fun h => List.map_injective_iff.2 hinj h,
    fun h => h ▸ rfl⟩

theorem max_indices_go_map {α β : Type u} (F : α → β)
    (gt1 eq1 : α → α → Bool) (gt2 eq2 : β → β → Bool)
    (hgt : ∀ x y, gt2 (F x) (F y) = gt1 x y)
    (heq : ∀ x y, eq2 (F x) (F y) = eq1 x y) :
    ∀ (l : List α) (i : Nat) (h : α) (acc : List Nat),
      max_indices_go gt2 eq2 (l.map F) i (F h) acc =
        (F (max_indices_go gt1 eq1 l i h acc).1,
         (max_indices_go gt1 eq1 l i h acc).2) := by
  intro l
  induction l with
  | nil => intro i h acc; rfl
  | cons n rest ih =>
    intro i h acc
    simp only [List.map_cons, max_indices_go, hgt, heq]
    by_cases h1 : gt1 n h = true
    · rw [if_pos h1, if_pos h1, ih]
    · rw [if_neg h1, if_neg h1]
      by_cases h2 : eq1 n h = true
      · rw [if_pos h2, if_pos h2, ih]
      · rw [if_neg h2, if_neg h2, ih]

theorem max_indices_map {α β : Type u} (F : α → β)
    (gt1 eq1 : α → α → Bool) (gt2 eq2 : β → β → Bool)
    (hgt : ∀ x y, gt2 (F x) (F y) = gt1 x y)
    (heq : ∀ x y, eq2 (F x) (F y) = eq1 x y) (l : List α) :
    max_indices gt2 eq2 (l.map F) =
      ((max_indices gt1 eq1 l).1.map F, (max_indices gt1 eq1 l).2) := by
  match l with
  | [] => rfl
  | n :: rest =>
    simp only [List.map_cons, max_indices]
    rw [max_indices_go_map F gt1 eq1 gt2 eq2 hgt heq]
    simp

theorem best_matches_eq_num (a : Str) (L : List Str) :
    best_matches a L = best_matches_num a L := by
  have hawlen : 0 < (pySplit ' ' a).length := by
    match hsp : pySplit ' ' a with
    | [] => exact absurd hsp (pySplit_ne_nil ' ' a)
    | w :: ws => simp
  simp only [best_matches, best_matches_num]
  by_cases h1 : !((List.range L.length).filter
      (fun i => pyInfix a (L.getD i []))).isEmpty
  · rw [if_pos h1, if_pos h1]
  · rw [if_neg h1, if_neg h1]
    match hmi : max_indices (fun x y => decide (x > y))
        (fun x y => decide (x = y))
        ((L.map (pySplit ' ')).map
          (fun b => count_matching_words (pySplit ' ' a) b)) with
    | (none, snd) => simp only [hmi]
    | (some highest, none) => simp only [hmi]
    | (some highest, some found) =>
      simp only [hmi]
      by_cases h2 : highest = 0
      · rw [if_pos h2, if_pos h2]
      · rw [if_neg h2, if_neg h2]
        by_cases h3 : found.length = 1
        · rw [if_pos h3, if_pos h3]
        · rw [if_neg h3, if_neg h3]
          have hmap : found.map (fun i => matchingness (pySplit ' ' a)
                ((L.map (pySplit ' ')).getD i [])) =
              (found.map (fun i => matchingness_num (pySplit ' ' a)
                ((L.map (pySplit ' ')).getD i []))).map
                (fun lens => lens.map
                  (fun len : Nat => (len : ℚ) / ((pySplit ' ' a).length : ℚ))) := by
            rw [List.map_map]
            apply List.map_congr_left
            intro i _
            exact matchingness_eq_num (pySplit ' ' a)
              ((L.map (pySplit ' ')).getD i [])
          rw [hmap, max_indices_map
            (fun lens => lens.map
              (fun len : Nat => (len : ℚ) / ((pySplit ' ' a).length : ℚ)))
            pyLexGtNat (fun x y => decide (x = y)) pyLexGtQ
            (fun x y => decide (x = y))
            (fun x y => pyLexGtQ_map_div (pySplit ' ' a).length hawlen x y)
            (fun x y => map_div_inj_eq (pySplit ' ' a).length hawlen x y)]
          match hmj : max_indices pyLexGtNat (fun x y => decide (x = y))
              (found.map (fun i => matchingness_num (pySplit ' ' a)
                ((L.map (pySplit ' ')).getD i []))) with
          | (none, _) =>
            simp only [hmj]
            rfl
          | (some _, none) =>
            simp only [hmj]
            rfl
          | (some hv, some dm) =>
            simp only [hmj]
            rfl

end Uis

namespace Uis

theorem pyLexGtQ_cons_iff (q r : ℚ) (qs rs : List ℚ) :
    pyLexGtQ (q :: qs) (r :: rs) = true ↔
      q > r ∨ (q = r ∧ pyLexGtQ qs rs = true) := by
  simp only [pyLexGtQ]
  by_cases h1 : q > r
  · simp [h1]
  · rw [if_neg h1]
    by_cases h2 : r > q
    · have hne : q ≠ r := ne_of_lt h2
      simp [h1, h2, hne]
    · have heq : q = r := le_antisymm (not_lt.1 h1) (not_lt.1 h2)
      simp [h1, h2, heq]

theorem pyLexGtQ_irrefl (x : List ℚ) : pyLexGtQ x x = false := by
  induction x with
  | nil => rfl
  | cons q qs ih =>
    rw [Bool.eq_false_iff]
    intro hc
    rcases (pyLexGtQ_cons_iff q q qs qs).1 hc with h | ⟨_, h⟩
    · exact absurd h (lt_irrefl q)
    · rw [ih] at h
      exact absurd h (by simp)

theorem pyLexGtQ_trans (x y z : List ℚ) (h1 : pyLexGtQ x y = true)
    (h2 : pyLexGtQ y z = true) : pyLexGtQ x z = true := by
  induction x generalizing y z with
  | nil => simp [pyLexGtQ] at h1
  | cons q qs ih =>
    match y, z with
    | [], _ => simp [pyLexGtQ] at h2
    | _ :: _, [] => rfl
    | r :: rs, s :: ss =>
      rcases (pyLexGtQ_cons_iff q r qs rs).1 h1 with hq | ⟨heq1, hq⟩ <;>
        rcases (pyLexGtQ_cons_iff r s rs ss).1 h2 with hr | ⟨heq2, hr⟩
      · exact (pyLexGtQ_cons_iff q s qs ss).2 (Or.inl (lt_trans hr hq))
      · exact (pyLexGtQ_cons_iff q s qs ss).2 (Or.inl (heq2 ▸ hq))
      · exact (pyLexGtQ_cons_iff q s qs ss).2 (Or.inl (heq1.symm ▸ hr))
      · exact (pyLexGtQ_cons_iff q s qs ss).2
          (Or.inr ⟨heq1.trans heq2, ih rs ss hq hr⟩)

theorem pyLexGtQ_conn (x y : List ℚ) (h1 : pyLexGtQ x y = false)
    (h2 : pyLexGtQ y x = false) : x = y := by
  induction x generalizing y with
  | nil =>
    match y with
    | [] => rfl
    | r :: rs => simp [pyLexGtQ] at h2
  | cons q qs ih =>
    match y with
    | [] => simp [pyLexGtQ] at h1
    | r :: rs =>
      rw [Bool.eq_false_iff] at h1 h2
      have hq : ¬ (q > r) := fun hc =>
        h1 ((pyLexGtQ_cons_iff q r qs rs).2 (Or.inl hc))
      have hr : ¬ (r > q) := fun hc =>
        h2 ((pyLexGtQ_cons_iff r q rs qs).2 (Or.inl hc))
      have heq : q = r := le_antisymm (not_lt.1 hq) (not_lt.1 hr)
      subst heq
      have hqs : pyLexGtQ qs rs = false := by
        rw [Bool.eq_false_iff]
        intro hc
        exact h1 ((pyLexGtQ_cons_iff q q qs rs).2 (Or.inr ⟨rfl, hc⟩))
      have hrs : pyLexGtQ rs qs = false := by
        rw [Bool.eq_false_iff]
        intro hc
        exact h2 ((pyLexGtQ_cons_iff q q rs qs).2 (Or.inr ⟨rfl, hc⟩))
      rw [ih rs hqs hrs]

theorem natGt_irrefl (x : Nat) : decide (x > x) = false := by simp

theorem natGt_trans (x y z : Nat) (h1 : decide (x > y) = true)
    (h2 : decide (y > z) = true) : decide (x > z) = true := by
  simp at h1 h2 ⊢
  omega

theorem natGt_conn (x y : Nat) (h1 : decide (x > y) = false)
    (h2 : decide (y > x) = false) : x = y := by
  simp at h1 h2
  omega

end Uis

namespace Uis

/-- Invariant-passing specification of the `max_indices` loop: with the
prefix processed so far summarised by the current maximum and its index
list, the loop returns the maximum of the whole list and the ascending
list of all indices attaining it. -/
theorem max_indices_go_spec {α : Type u} [DecidableEq α] (gt : α → α → Bool)
    (Hirr : ∀ x, gt x x = false)
    (Htrans : ∀ x y z, gt x y = true → gt y z = true → gt x z = true)
    (Hconn : ∀ x y, gt x y = false → gt y x = false → x = y) :
    ∀ (rest pre : List α) (h : α) (acc : List Nat),
      h ∈ pre → (∀ y ∈ pre, gt y h = false) →
      acc = (List.range pre.length).filter
        (fun i => decide (pre[i]? = some h)) →
      (max_indices_go gt (fun x y => decide (x = y))
          rest pre.length h acc).1 ∈ pre ++ rest ∧
      (∀ y ∈ pre ++ rest,
        gt y (max_indices_go gt (fun x y => decide (x = y))
          rest pre.length h acc).1 = false) ∧
      (max_indices_go gt (fun x y => decide (x = y))
          rest pre.length h acc).2 =
        (List.range (pre ++ rest).length).filter
          (fun i => decide ((pre ++ rest)[i]? = some
            (max_indices_go gt (fun x y => decide (x = y))
              rest pre.length h acc).1)) := by
  intro rest
  induction rest with
  | nil =>
    intro pre h acc hmem hmax hacc
    simp only [max_indices_go, List.append_nil]
    exact ⟨hmem, hmax, hacc⟩
  | cons n rest ih =>
    intro pre h acc hmem hmax hacc
    have hlen : (pre ++ [n]).length = pre.length + 1 := by simp
    have hpeq : pre ++ n :: rest = (pre ++ [n]) ++ rest := by
      rw [List.append_cons]
    have hpref : ∀ (v : α), (List.range (pre ++ [n]).length).filter
        (fun i => decide ((pre ++ [n])[i]? = some v)) =
        ((List.range pre.length).filter
          (fun i => decide (pre[i]? = some v))) ++
        (if (n = v) then [pre.length] else []) := by
      intro v
      rw [hlen, List.range_succ, List.filter_append]
      congr 1
      · apply List.filter_congr
        intro i hi
        rw [List.mem_range] at hi
        rw [List.getElem?_append, if_pos hi]
      · have hval : (pre ++ [n])[pre.length]? = some n := by
          rw [List.getElem?_append_right (le_refl pre.length), Nat.sub_self]
          rfl
        rw [List.filter_cons, hval]
        by_cases hv : n = v
        · rw [if_pos (by simp [hv]), if_pos hv]
          rfl
        · rw [if_neg (by simp [hv]), if_neg hv]
          rfl
      
    simp only [max_indices_go]
    by_cases h1 : gt n h = true
    · rw [if_pos h1]
      have hres := ih (pre ++ [n]) n [pre.length] (by simp)
        (by
          intro y hy
          rcases List.mem_append.1 hy with hy | hy
          · rw [Bool.eq_false_iff]
            intro hc
            have := Htrans y n h hc h1
            rw [hmax y hy] at this
            exact absurd this (by simp)
          · rw [List.mem_singleton] at hy
            subst hy
            exact Hirr y)
        (by
          rw [hpref n, if_pos rfl]
          have hempty : (List.range pre.length).filter
              (fun i => decide (pre[i]? = some n)) = [] := by
            rw [List.filter_eq_nil_iff]
            intro i hi
            rw [List.mem_range] at hi
            simp only [decide_eq_true_eq]
            intro hc
            have hin : n ∈ pre := List.getElem?_mem hc
            have := hmax n hin
            rw [h1] at this
            exact absurd this (by simp)
          rw [hempty]
          rfl)
      rw [hlen] at hres
      rw [hpeq]
      exact hres
    · rw [if_neg h1]
      by_cases h2 : n = h
      · rw [if_pos (by simp [h2])]
        have hres := ih (pre ++ [n]) h (acc ++ [pre.length])
          (by rw [List.mem_append]; exact Or.inl hmem)
          (by
            intro y hy
            rcases List.mem_append.1 hy with hy | hy
            · exact hmax y hy
            · rw [List.mem_singleton] at hy
              subst hy
              rw [h2]
              exact Hirr h)
          (by rw [hpref h, if_pos h2, hacc])
        rw [hlen] at hres
        rw [hpeq]
        exact hres
      · rw [if_neg (by simp [h2])]
        have hres := ih (pre ++ [n]) h acc
          (by rw [List.mem_append]; exact Or.inl hmem)
          (by
            intro y hy
            rcases List.mem_append.1 hy with hy | hy
            · exact hmax y hy
            · rw [List.mem_singleton] at hy
              subst hy
              rw [Bool.eq_false_iff]
              intro hc
              exact h1 hc)
          (by rw [hpref h, if_neg h2, hacc, List.append_nil])
        rw [hlen] at hres
        rw [hpeq]
        exact hres

/-- `max_indices` on a non-empty list returns its maximum together with
the ascending list of indices where the maximum occurs. -/
theorem max_indices_spec {α : Type u} [DecidableEq α] (gt : α → α → Bool)
    (Hirr : ∀ x, gt x x = false)
    (Htrans : ∀ x y z, gt x y = true → gt y z = true → gt x z = true)
    (Hconn : ∀ x y, gt x y = false → gt y x = false → x = y)
    (l : List α) (hl : l ≠ []) :
    ∃ M I, max_indices gt (fun x y => decide (x = y)) l = (some M, some I) ∧
      M ∈ l ∧ (∀ y ∈ l, gt y M = false) ∧
      I = (List.range l.length).filter (fun i => decide (l[i]? = some M)) := by
  match l with
  | [] => exact absurd rfl hl
  | x :: xs =>
    have hres := max_indices_go_spec gt Hirr Htrans Hconn xs [x] x [0]
      (by simp) (by
        intro y hy
        rw [List.mem_singleton] at hy
        subst hy
        exact Hirr y)
      (by simp [List.range_succ, List.filter_cons])
    obtain ⟨hmem, hmax, hI⟩ := hres
    refine ⟨_, _, rfl, ?_, ?_, ?_⟩
    · simpa using hmem
    · simpa using hmax
    · simpa using hI

/-- Mapping an index filter back through `getD` turns "indices of the mapped
list whose image is `v`" into "elements whose image is `v`". -/
theorem filter_idx_map_getD {β : Type u} [DecidableEq β] (g : Nat → β) (v : β) :
    ∀ (l : List Nat),
    ((List.range l.length).filter (fun k => decide ((l.map g)[k]? = some v))).map
        (fun k => l.getD k 0) =
      l.filter (fun x => decide (g x = v))
  | [] => rfl
  | x :: xs => by
    rw [List.length_cons, List.range_succ_eq_map, List.filter_cons]
    have hp0 : (decide (((x :: xs).map g)[0]? = some v)) = decide (g x = v) := by
      simp
    have hps : List.filter (fun k => decide (((x :: xs).map g)[k]? = some v))
        ((List.range xs.length).map Nat.succ) =
        (List.filter (fun k => decide ((xs.map g)[k]? = some v))
          (List.range xs.length)).map Nat.succ := by
      rw [List.filter_map]
      congr 1
      apply List.filter_congr
      intro k hk
      simp [Function.comp]
    rw [hp0, hps]
    by_cases hv : g x = v
    · rw [if_pos (by simp [hv]), List.map_cons, List.map_map]
      have hmc : ((List.filter (fun k => decide ((xs.map g)[k]? = some v))
          (List.range xs.length)).map ((fun k => (x :: xs).getD k 0) ∘ Nat.succ)) =
          ((List.range xs.length).filter
            (fun k => decide ((xs.map g)[k]? = some v))).map
            (fun k => xs.getD k 0) := by
        apply List.map_congr_left
        intro k _
        rfl
      rw [hmc, filter_idx_map_getD g v xs, List.filter_cons, if_pos (by simp [hv])]
      rfl
    · rw [if_neg (by simp [hv]), List.map_map]
      have hmc : ((List.filter (fun k => decide ((xs.map g)[k]? = some v))
          (List.range xs.length)).map ((fun k => (x :: xs).getD k 0) ∘ Nat.succ)) =
          ((List.range xs.length).filter
            (fun k => decide ((xs.map g)[k]? = some v))).map
            (fun k => xs.getD k 0) := by
        apply List.map_congr_left
        intro k _
        rfl
      rw [hmc, filter_idx_map_getD g v xs, List.filter_cons, if_neg (by simp [hv])]

/-- Filtering the word-count-maximal indices down to those whose
matchingness tuple equals the lexicographically maximal tuple yields
exactly `label_tier_best`. -/
theorem label_tier_filter_eq (a : Str) (L : List Str) (M : Nat) (I : List Nat)
    (M2 : List ℚ)
    (hI : I = (List.range L.length).filter (fun i =>
      decide (((L.map (pySplit ' ')).map
        (fun b => count_matching_words (pySplit ' ' a) b))[i]? = some M)))
    (hMmax : ∀ y ∈ (L.map (pySplit ' ')).map
        (fun b => count_matching_words (pySplit ' ' a) b),
      decide (y > M) = false)
    (hM2mem : M2 ∈ I.map (fun i => matchingness (pySplit ' ' a)
        ((L.map (pySplit ' ')).getD i [])))
    (hM2max : ∀ y ∈ I.map (fun i => matchingness (pySplit ' ' a)
        ((L.map (pySplit ' ')).getD i [])), pyLexGtQ y M2 = false) :
    I.filter (fun i => decide (matchingness (pySplit ' ' a)
        ((L.map (pySplit ' ')).getD i []) = M2)) = label_tier_best a L := by
  have hgetD : ∀ i, i < L.length →
      (L.map (pySplit ' ')).getD i [] = pySplit ' ' (L.getD i []) := by
    intro i hi
    rw [List.getD_eq_getElem (L.map (pySplit ' ')) [] (by simpa using hi),
      List.getD_eq_getElem L [] hi]
    simp
  have hcnt : ∀ i, i < L.length →
      ((L.map (pySplit ' ')).map
        (fun b => count_matching_words (pySplit ' ' a) b))[i]? =
      some (count_matching_words (pySplit ' ' a)
        (pySplit ' ' (L.getD i []))) := by
    intro i hi
    rw [List.getElem?_map, List.getElem?_map, List.getElem?_eq_getElem hi,
      List.getD_eq_getElem L [] hi]
    rfl
  have hImem : ∀ i, i ∈ I ↔ i < L.length ∧
      count_matching_words (pySplit ' ' a) (pySplit ' ' (L.getD i [])) = M := by
    intro i
    rw [hI, List.mem_filter, List.mem_range]
    constructor
    · rintro ⟨hi, hp⟩
      rw [hcnt i hi] at hp
      simp only [decide_eq_true_eq, Option.some.injEq] at hp
      exact ⟨hi, hp⟩
    · rintro ⟨hi, hp⟩
      refine ⟨hi, ?_⟩
      rw [hcnt i hi, hp]
      simp
  obtain ⟨i2, hi2I, hi2g⟩ := List.mem_map.1 hM2mem
  obtain ⟨hi2lt, hi2cnt⟩ := (hImem i2).1 hi2I
  rw [hgetD i2 hi2lt] at hi2g
  have hMmax2 : ∀ j, j < L.length →
      ¬ (count_matching_words (pySplit ' ' a) (pySplit ' ' (L.getD j [])) > M) := by
    intro j hj
    have hmem : count_matching_words (pySplit ' ' a) (pySplit ' ' (L.getD j []))
        ∈ (L.map (pySplit ' ')).map
          (fun b => count_matching_words (pySplit ' ' a) b) := by
      rw [List.getD_eq_getElem L [] hj]
      exact List.mem_map.2 ⟨pySplit ' ' L[j],
        List.mem_map.2 ⟨L[j], List.getElem_mem hj, rfl⟩, rfl⟩
    have hy := hMmax _ hmem
    simpa using hy
  have hM2max2 : ∀ j, j ∈ I →
      pyLexGtQ (matchingness (pySplit ' ' a)
        (pySplit ' ' (L.getD j []))) M2 = false := by
    intro j hjI
    have hj := ((hImem j).1 hjI).1
    have hy := hM2max _ (List.mem_map.2 ⟨j, hjI, rfl⟩)
    rwa [hgetD j hj] at hy
  rw [hI, List.filter_filter]
  simp only [label_tier_best]
  apply List.filter_congr
  intro i hiR
  rw [List.mem_range] at hiR
  rw [Bool.eq_iff_iff]
  rw [hcnt i hiR, hgetD i hiR]
  simp only [Bool.and_eq_true, decide_eq_true_eq, Option.some.injEq,
    List.all_eq_true, List.mem_range, Bool.not_eq_true', Bool.or_eq_false_iff,
    Bool.and_eq_false_iff, decide_eq_false_iff_not]
  constructor
  · rintro ⟨hgi, hcnti⟩ j hj
    refine ⟨by rw [hcnti]; exact hMmax2 j hj, ?_⟩
    by_cases hje : count_matching_words (pySplit ' ' a)
        (pySplit ' ' (L.getD j [])) =
      count_matching_words (pySplit ' ' a) (pySplit ' ' (L.getD i []))
    · refine Or.inr ?_
      have hjI : j ∈ I := (hImem j).2 ⟨hj, by rw [hje, hcnti]⟩
      have hjle := hM2max2 j hjI
      rw [← hgi] at hjle
      exact hjle
    · exact Or.inl hje
  · intro hall
    have hcnti : count_matching_words (pySplit ' ' a)
        (pySplit ' ' (L.getD i [])) = M := by
      have h1 := (hall i2 hi2lt).1
      rw [hi2cnt] at h1
      have h2 := hMmax2 i hiR
      omega
    refine ⟨?_, hcnti⟩
    have hiI : i ∈ I := (hImem i).2 ⟨hiR, hcnti⟩
    have hd1 := hM2max2 i hiI
    rw [← hi2g] at hd1
    have h2 := hall i2 hi2lt
    rcases h2.2 with hne | hlex
    · exact absurd (by rw [hi2cnt, hcnti]) hne
    · rw [hi2g] at hlex
      rw [hi2g] at hd1
      have := pyLexGtQ_conn _ _ hd1 (by simpa using hlex)
      exact this

/-- C2 (amended): when no candidate label contains the whole query as a
substring and some candidate shares at least one word with the query,
`best_matches` returns exactly the candidates with the maximal count of
matching words whose matchingness fraction tuple is lexicographically
maximal among those (Python tuple `>`), i.e. `label_tier_best`.  The
comparison is the lexicographic order on the fraction sequences, not the
count-of-nonzero-then-sum order stated by the spec. -/
theorem best_matches_ranks_lexicographically (a : Str) (L : List Str)
    (H1 : ∀ b ∈ L, pyInfix a b = false)
    (H2 : ∃ b ∈ L, 0 < count_matching_words (pySplit ' ' a) (pySplit ' ' b)) :
    best_matches a L = some (label_tier_best a L) := by
  obtain ⟨b0, hb0, hb0pos⟩ := H2
  simp only [best_matches]
  have hm1 : ((List.range L.length).filter
      (fun i => pyInfix a (L.getD i []))) = [] := by
    rw [List.filter_eq_nil_iff]
    intro i hi
    rw [List.mem_range] at hi
    rw [List.getD_eq_getElem L [] hi, H1 L[i] (List.getElem_mem hi)]
    simp
  rw [hm1, if_neg (by simp)]
  have hLne : L ≠ [] := by
    rintro rfl
    simp at hb0
  have hclne : ((L.map (pySplit ' ')).map
      (fun b => count_matching_words (pySplit ' ' a) b)) ≠ [] := by
    intro hc
    rw [List.map_eq_nil_iff, List.map_eq_nil_iff] at hc
    exact hLne hc
  obtain ⟨M, I, hMI, hMmem, hMmax, hIdef⟩ :=
    max_indices_spec (fun x y : Nat => decide (x > y)) natGt_irrefl natGt_trans
      natGt_conn
      ((L.map (pySplit ' ')).map (fun b => count_matching_words (pySplit ' ' a) b))
      hclne
  simp only [hMI]
  have hlen : ((L.map (pySplit ' ')).map
      (fun b => count_matching_words (pySplit ' ' a) b)).length = L.length := by
    simp
  rw [hlen] at hIdef
  have hMne : ¬ M = 0 := by
    have hmem : count_matching_words (pySplit ' ' a) (pySplit ' ' b0) ∈
        (L.map (pySplit ' ')).map
          (fun b => count_matching_words (pySplit ' ' a) b) :=
      List.mem_map.2 ⟨pySplit ' ' b0, List.mem_map.2 ⟨b0, hb0, rfl⟩, rfl⟩
    have hle := hMmax _ hmem
    simp only [decide_eq_false_iff_not, not_lt] at hle
    omega
  rw [if_neg hMne]
  by_cases hlen1 : I.length = 1
  · rw [if_pos hlen1]
    obtain ⟨i1, hI1⟩ := List.length_eq_one.1 hlen1
    subst hI1
    rw [← label_tier_filter_eq a L M [i1]
      (matchingness (pySplit ' ' a) ((L.map (pySplit ' ')).getD i1 []))
      hIdef hMmax (by simp)
      (by
        intro y hy
        simp only [List.map_cons, List.map_nil, List.mem_singleton] at hy
        rw [hy]
        exact pyLexGtQ_irrefl _)]
    simp
  · rw [if_neg hlen1]
    have hIne : I ≠ [] := by
      obtain ⟨j, hj, hjeq⟩ := List.getElem_of_mem hMmem
      have hjI : j ∈ I := by
        rw [hIdef, List.mem_filter, List.mem_range]
        refine ⟨by simpa using hj, ?_⟩
        rw [List.getElem?_eq_getElem hj, hjeq]
        simp
      intro hc
      rw [hc] at hjI
      simp at hjI
    obtain ⟨M2, I2, hMI2, hM2mem, hM2max, hI2def⟩ :=
      max_indices_spec pyLexGtQ pyLexGtQ_irrefl pyLexGtQ_trans pyLexGtQ_conn
        (I.map (fun i => matchingness (pySplit ' ' a)
          ((L.map (pySplit ' ')).getD i []))) (by simpa using hIne)
    simp only [hMI2]
    congr 1
    rw [hI2def]
    have hlenI : (I.map (fun i => matchingness (pySplit ' ' a)
        ((L.map (pySplit ' ')).getD i []))).length = I.length := by
      simp
    rw [hlenI, filter_idx_map_getD]
    exact label_tier_filter_eq a L M I M2 hIdef hMmax hM2mem hM2max

/-- C2 witness: a concrete query and candidate list where no label contains
the query as a substring and some words match, evaluated through the
amended theorem. -/
theorem best_matches_ranks_lexicographically_witness :
    best_matches "w x".data ["y w".data, "z q".data] =
      some (label_tier_best "w x".data ["y w".data, "z q".data]) :=
  best_matches_ranks_lexicographically "w x".data ["y w".data, "z q".data]
    (by decide) ⟨"y w".data, by simp, by decide⟩

/-- C2 counterexample to the spec's ordering: for the query `"w x y z"`
with candidate labels `"w x y q z"` and `"w x q y z"`, the matchingness
tuples are `(3/4, 1/4)` and `(2/4, 2/4)`; they tie under the spec's
count-of-nonzero-matches-then-sum comparison (two nonzero fractions and
sum 1 on both sides), yet `best_matches` keeps only the first candidate,
because the code compares the tuples lexicographically. -/
theorem best_matches_spec_order_counterexample :
    best_matches "w x y z".data ["w x y q z".data, "w x q y z".data] =
        some [0] ∧
      specFractionsGt
        (matchingness (pySplit ' ' "w x y z".data)
          (pySplit ' ' "w x y q z".data))
        (matchingness (pySplit ' ' "w x y z".data)
          (pySplit ' ' "w x q y z".data)) = false ∧
      specFractionsGt
        (matchingness (pySplit ' ' "w x y z".data)
          (pySplit ' ' "w x q y z".data))
        (matchingness (pySplit ' ' "w x y z".data)
          (pySplit ' ' "w x y q z".data)) = false := by
  have h1 : matchingness_num (pySplit ' ' "w x y z".data)
      (pySplit ' ' "w x y q z".data) = [3, 1] := by decide
  have h2 : matchingness_num (pySplit ' ' "w x y z".data)
      (pySplit ' ' "w x q y z".data) = [2, 2] := by decide
  have hlen : ((pySplit ' ' "w x y z".data).length : ℚ) = 4 := by decide
  refine ⟨?_, ?_, ?_⟩
  · rw [best_matches_eq_num]
    decide
  · rw [matchingness_eq_num, matchingness_eq_num, h1, h2, hlen]
    simp only [List.map_cons, List.map_nil, specFractionsGt]
    norm_num
  · rw [matchingness_eq_num, matchingness_eq_num, h1, h2, hlen]
    simp only [List.map_cons, List.map_nil, specFractionsGt]
    norm_num

/-- C4: for the query `"rofst 3 f"` against a catalog of exactly the two
indicators with short keys `"rofst-3-f"` and `"rofst-3-f-rur"` (the query
being no exact key, id or short-key match), the strict tier matches both
indicators, and the fewest-hyphen-parts tie-break makes `fuzzy_lookup`
with `shortest=True` and no disaggregation filter return only the
indicator with short key `"rofst-3-f"`. -/
theorem fuzzy_lookup_rofst_scenario (i0 i1 : IndicatorRec)
    (h0 : i0.short_key = "rofst-3-f".data)
    (h1 : i1.short_key = "rofst-3-f-rur".data)
    (hx : lookup [i0, i1] "rofst 3 f".data = none) :
    tier_indices [i0, i1] strict_key_match
        (pySplit ' ' "rofst 3 f".data) = [0, 1] ∧
      fuzzy_lookup_noBy [i0, i1] "rofst 3 f".data true true = some [i0] := by
  have hs0 : strict_key_match (pySplit ' ' "rofst 3 f".data)
      (pySplit '-' "rofst-3-f".data) = true := by decide
  have hs1 : strict_key_match (pySplit ' ' "rofst 3 f".data)
      (pySplit '-' "rofst-3-f-rur".data) = true := by decide
  have ht : tier_indices [i0, i1] strict_key_match
      (pySplit ' ' "rofst 3 f".data) = [0, 1] := by
    simp only [tier_indices, List.length_cons, List.length_nil]
    rw [show List.range (0 + 1 + 1) = [0, 1] from rfl]
    rw [List.filter_cons, List.filter_cons, List.filter_nil]
    simp only [List.getD_cons_zero, List.getD_cons_succ, h0, h1, hs0, hs1,
      Bool.true_or, if_pos]
  have hi : interpret_indices [i0, i1] true true [0, 1] = some [i0] := by
    simp only [interpret_indices]
    rw [if_neg (by simp)]
    simp only [List.map_cons, List.map_nil, List.getD_cons_zero,
      List.getD_cons_succ, h0, h1]
    simp only [show (pySplit '-' "rofst-3-f".data).length = 3 from rfl,
      show (pySplit '-' "rofst-3-f-rur".data).length = 4 from rfl]
    simp only [show ([3, 4] : List Nat).min? = some 3 from rfl]
    rw [List.filter_cons, List.filter_cons, List.filter_nil, h0, h1]
    simp only [show (decide ((pySplit '-' "rofst-3-f".data).length = 3))
        = true from rfl,
      show (decide ((pySplit '-' "rofst-3-f-rur".data).length = 3))
        = false from rfl]
    simp
  refine ⟨ht, ?_⟩
  simp only [fuzzy_lookup_noBy, hx, ht, hi]
  rfl

/-- C4 witness: a concrete two-indicator catalog realising the scenario. -/
theorem fuzzy_lookup_rofst_scenario_witness :
    tier_indices
        [⟨"K0".data, "rofst-3-f".data, "ID0".data, "L0".data⟩,
         ⟨"K1".data, "rofst-3-f-rur".data, "ID1".data, "L1".data⟩]
        strict_key_match (pySplit ' ' "rofst 3 f".data) = [0, 1] ∧
      fuzzy_lookup_noBy
        [⟨"K0".data, "rofst-3-f".data, "ID0".data, "L0".data⟩,
         ⟨"K1".data, "rofst-3-f-rur".data, "ID1".data, "L1".data⟩]
        "rofst 3 f".data true true =
      some [⟨"K0".data, "rofst-3-f".data, "ID0".data, "L0".data⟩] :=
  fuzzy_lookup_rofst_scenario
    ⟨"K0".data, "rofst-3-f".data, "ID0".data, "L0".data⟩
    ⟨"K1".data, "rofst-3-f-rur".data, "ID1".data, "L1".data⟩
    rfl rfl (by decide)

end Uis
